import Mathlib

/-!
# Metric store, windowed aggregation and alert-rule evaluation

A shallow embedding of `pkg/prometheus/collector.go`, `pkg/prometheus/aggregator.go`
and `pkg/rules/engine.go`, with the records of `internal/models/models.go`.

Modelling conventions.

* Instants (`time.Time`) are integers counting nanoseconds, and every read of
  `time.Now()` is an explicit argument `now`.  A `time.Duration` is an `int64` count of
  nanoseconds: an integer, with the negation `-duration` wrapping as it does in Go.
* A `float64` is an `F64`: a rational number, an infinity, or NaN.  Every arithmetic
  operation rounds its exact result to the nearest double, ties to even, and overflows
  to an infinity, as IEEE 754 prescribes; the doubles are the rationals `F64.round`
  leaves unchanged.  The two zeros are one value: no operation of the program tells
  them apart (they compare equal and no divisor is a negative zero).
* The conversion `int(x)` of a float outside the range of `int64`, or of NaN, is left
  to the implementation by the Go specification; it is taken as on amd64, where it gives
  the minimum `int64`.
* A Go `map[string]string` is the list of its entries.  Go leaves the order in
  which `range` visits a map unspecified and draws it anew at each traversal, so wherever
  the source ranges over a label map the list is read as the order of that particular
  traversal.
* The registry `map[string]*MetricSeries` is a finite function from keys to
  series; locks are not modelled (every operation runs to completion alone).
-/

namespace Monitoring

/-! ## Numbers and time -/

/-- An instant, in nanoseconds. -/
abbrev Time := Int

/-- A `time.Duration`: a signed count of nanoseconds, held in an `int64`. -/
abbrev Duration := Int

/-- The least `int64`. -/
def minInt64 : Int := -9223372036854775808

/-- The value an `int64` computation keeps of an integer: its residue in
`[-2^63, 2^63)`. -/
def wrapInt64 (n : Int) : Int := (n + 9223372036854775808) % 18446744073709551616 - 9223372036854775808

/-- The negation `-d` of an `int64`: it wraps at the least `int64`, which is its own
negation. -/
def negInt64 (d : Int) : Int := wrapInt64 (-d)

/-- A `float64`: a finite value, an infinity, or NaN. -/
inductive F64 where
  | fin (q : ℚ)
  | posInf
  | negInf
  | nan
  deriving DecidableEq, Repr

/-- Rounding of a rational to an integer, to the nearest and to the even one on a tie. -/
def roundHalfEven (z : ℚ) : Int :=
  if z - ⌊z⌋ < 1 / 2 then ⌊z⌋
  else if 1 / 2 < z - ⌊z⌋ then ⌊z⌋ + 1
  else if ⌊z⌋ % 2 = 0 then ⌊z⌋ else ⌊z⌋ + 1

/-- The binary exponent of the doubles around `x`: the integer part of the base-2
logarithm of `|x|`, and -1022 in the subnormal range. -/
def binade (x : ℚ) : Int := max (Int.log 2 |x|) (-1022)

/-- The spacing of the doubles around `x`: 52 binary digits below the leading one. -/
def quantum (x : ℚ) : ℚ := 2 ^ (binade x - 52)

/-- Rounding of a rational to the nearest multiple of the spacing of the doubles around
it, ties to even: the nearest double, were the exponent unbounded above. -/
def roundToGrid (x : ℚ) : ℚ := roundHalfEven (x / quantum x) * quantum x

namespace F64

/-- A test `math.IsNaN`. -/
def isNaN : F64 → Bool
  | nan => true
  | _ => false

/-- IEEE 754 rounding of an exact result to a `float64`: to the nearest double, ties to
even, and to an infinity from `2^1024` on. -/
def round (x : ℚ) : F64 :=
  if (2 : ℚ) ^ 1024 ≤ roundToGrid x then posInf
  else if roundToGrid x ≤ -(2 : ℚ) ^ 1024 then negInf
  else fin (roundToGrid x)

/-- IEEE 754 `<`: false whenever an operand is NaN. -/
def lt : F64 → F64 → Bool
  | fin a, fin b => decide (a < b)
  | fin _, posInf => true
  | negInf, fin _ => true
  | negInf, posInf => true
  | _, _ => false

/-- IEEE 754 `==`: NaN equals nothing, itself included. -/
def eq : F64 → F64 → Bool
  | fin a, fin b => decide (a = b)
  | posInf, posInf => true
  | negInf, negInf => true
  | _, _ => false

/-- IEEE 754 `<=`. -/
def le (a b : F64) : Bool := lt a b || eq a b

/-- Go `a > b`. -/
def gt (a b : F64) : Bool := lt b a

/-- Go `a >= b`. -/
def ge (a b : F64) : Bool := le b a

/-- Go `a != b`: true whenever an operand is NaN. -/
def ne (a b : F64) : Bool := !(eq a b)

/-- IEEE 754 addition. -/
def add : F64 → F64 → F64
  | fin a, fin b => round (a + b)
  | nan, _ => nan
  | _, nan => nan
  | posInf, negInf => nan
  | negInf, posInf => nan
  | posInf, _ => posInf
  | _, posInf => posInf
  | negInf, _ => negInf
  | _, negInf => negInf

/-- The sign rule of an infinity times or over a finite value that is not zero. -/
def signed (positive : Bool) : F64 := if positive then posInf else negInf

/-- IEEE 754 multiplication. -/
def mul : F64 → F64 → F64
  | fin a, fin b => round (a * b)
  | nan, _ => nan
  | _, nan => nan
  | posInf, fin b => if b = 0 then nan else signed (decide (0 < b))
  | negInf, fin b => if b = 0 then nan else signed (decide (b < 0))
  | fin a, posInf => if a = 0 then nan else signed (decide (0 < a))
  | fin a, negInf => if a = 0 then nan else signed (decide (a < 0))
  | posInf, posInf => posInf
  | negInf, negInf => posInf
  | posInf, negInf => negInf
  | negInf, posInf => negInf

/-- IEEE 754 division; a zero divisor is the positive zero. -/
def div : F64 → F64 → F64
  | fin a, fin b =>
    if b = 0 then
      if a = 0 then nan else signed (decide (0 < a))
    else round (a / b)
  | nan, _ => nan
  | _, nan => nan
  | fin _, posInf => fin 0
  | fin _, negInf => fin 0
  | posInf, fin b => signed (decide (0 ≤ b))
  | negInf, fin b => signed (decide (b < 0))
  | posInf, posInf => nan
  | posInf, negInf => nan
  | negInf, posInf => nan
  | negInf, negInf => nan

/-- The conversion `float64(n)` of an integer. -/
def ofInt (n : Int) : F64 := round n

end F64

/-- Truncation of a rational toward zero. -/
def truncToInt (x : ℚ) : Int := if 0 ≤ x then ⌊x⌋ else ⌈x⌉

/-- The conversion `int(x)` of a float: truncation toward zero when the result is an
`int64`, and the least `int64` otherwise (NaN and the infinities included). -/
def toInt64 : F64 → Int
  | F64.fin x =>
    if minInt64 ≤ truncToInt x ∧ truncToInt x < -minInt64 then truncToInt x else minInt64
  | _ => minInt64

/-- `time.Hour` in nanoseconds. -/
def hour : Duration := 3600 * 1000000000

/-- `Duration.Seconds()`: `float64(d / Second) + float64(d % Second) / 1e9`, the division
and the remainder of integers truncating toward zero. -/
def Duration.Seconds (d : Duration) : F64 :=
  F64.add (F64.ofInt (d.tdiv 1000000000))
    (F64.div (F64.ofInt (d.tmod 1000000000)) (F64.fin 1000000000))

/-! ## Records (`internal/models/models.go`, `pkg/prometheus/collector.go`) -/

/-- A label map, as the list of its entries. -/
abbrev Labels := List (String × String)

/-- The record `models.Metric` (the field `Type` is written `Type_`). -/
structure Metric where
  Name : String
  Value : F64
  Timestamp : Time
  Labels : Labels
  Type_ : String
  deriving DecidableEq, Repr

/-- The record `DataPoint`. -/
structure DataPoint where
  Value : F64
  Timestamp : Time
  deriving DecidableEq, Repr

/-- The record `MetricSeries` (without its lock). -/
structure MetricSeries where
  Name : String
  Type_ : String
  Values : List DataPoint
  Labels : Labels
  deriving DecidableEq, Repr

/-- The registry `MetricCollector.metrics`: lookup key to series. -/
abbrev MetricCollector := String → Option MetricSeries

/-- `NewMetricCollector`: the empty registry. -/
def NewMetricCollector : MetricCollector := fun _ => none

/-! ## The series registry (`pkg/prometheus/collector.go`) -/

/-- `MetricCollector.generateKey`: the name followed, for each label in the
order the traversal visits them, by `"__" + k + "=" + v`. -/
def generateKey (name : String) (labels : Labels) : String :=
  labels.foldl (fun key kv => key ++ "__" ++ kv.1 ++ "=" ++ kv.2) name

/-- `MetricCollector.pruneOldValues`, on the sample list: keep the samples whose
timestamp is after `now - 24h`. -/
def pruneOldValues (now : Time) (values : List DataPoint) : List DataPoint :=
  values.filter (fun dp => decide (now - 24 * hour < dp.Timestamp))

/-- `MetricCollector.RecordMetric`: find or create the series under the generated
key, append the sample, prune. -/
def RecordMetric (now : Time) (mc : MetricCollector) (metric : Metric) : MetricCollector :=
  let key := generateKey metric.Name metric.Labels
  let series : MetricSeries :=
    match mc key with
    | some s => s
    | none => { Name := metric.Name, Type_ := metric.Type_, Labels := metric.Labels, Values := [] }
  let appended := series.Values ++ [{ Value := metric.Value, Timestamp := metric.Timestamp }]
  let series := { series with Values := pruneOldValues now appended }
  fun k => if k = key then some series else mc k

/-- `MetricCollector.GetMetrics`: the series stored under the generated key. -/
def GetMetrics (mc : MetricCollector) (name : String) (labels : Labels) : Option MetricSeries :=
  mc (generateKey name labels)

/-- A sequence of `RecordMetric` calls, each with the time at which it runs. -/
def recordAll (mc : MetricCollector) (calls : List (Time × Metric)) : MetricCollector :=
  calls.foldl (fun mc call => RecordMetric call.1 mc call.2) mc

/-- The sample a call of `RecordMetric` appends. -/
def sampleOf (metric : Metric) : DataPoint :=
  { Value := metric.Value, Timestamp := metric.Timestamp }

/-! ## Windowed aggregation (`pkg/prometheus/aggregator.go`) -/

/-- The loop guard `dp.Timestamp.After(cutoff)` with `cutoff = now.Add(-duration)`. -/
def inWindow (now : Time) (duration : Duration) (dp : DataPoint) : Bool :=
  decide (now + negInt64 duration < dp.Timestamp)

/-- Values of the samples of a series that pass the window guard, in series order. -/
def windowValues (now : Time) (duration : Duration) (series : MetricSeries) : List F64 :=
  (series.Values.filter (inWindow now duration)).map (·.Value)

/-- The window as the specification words it: the values of the samples whose timestamp is
strictly after `now - duration`, in series order. -/
def strictWindow (now : Time) (duration : Duration) (series : MetricSeries) : List F64 :=
  (series.Values.filter (fun dp => decide (now - duration < dp.Timestamp))).map (·.Value)

/-- A duration is an `int64` other than the least one: the durations whose negation does
not wrap. -/
def Duration.Negatable (duration : Duration) : Prop :=
  minInt64 < duration ∧ duration < -minInt64

/-- The float `float64(n) * percentile / 100.0` that `Percentile` converts to its index. -/
def rankIndex (n : Nat) (percentile : F64) : F64 :=
  F64.div (F64.mul (F64.ofInt n) percentile) (F64.fin 100)

/-- `Aggregator.Sum`. -/
def Sum (mc : MetricCollector) (now : Time) (name : String) (labels : Labels)
    (duration : Duration) : F64 :=
  match GetMetrics mc name labels with
  | none => F64.fin 0
  | some series =>
    series.Values.foldl
      (fun sum dp => if inWindow now duration dp then F64.add sum dp.Value else sum) (F64.fin 0)

/-- `Aggregator.Average`. -/
def Average (mc : MetricCollector) (now : Time) (name : String) (labels : Labels)
    (duration : Duration) : F64 :=
  match GetMetrics mc name labels with
  | none => F64.fin 0
  | some series =>
    let acc := series.Values.foldl
      (fun (acc : F64 × Nat) dp =>
        if inWindow now duration dp then (F64.add acc.1 dp.Value, acc.2 + 1) else acc)
      (F64.fin 0, 0)
    if acc.2 = 0 then F64.fin 0 else F64.div acc.1 (F64.ofInt acc.2)

/-- `Aggregator.Max`: the running maximum starts at `math.Inf(-1)`, and a result that
is still `math.Inf(-1)` is replaced by 0. -/
def Max (mc : MetricCollector) (now : Time) (name : String) (labels : Labels)
    (duration : Duration) : F64 :=
  match GetMetrics mc name labels with
  | none => F64.fin 0
  | some series =>
    let max := series.Values.foldl
      (fun (max : F64) dp =>
        if inWindow now duration dp then
          if F64.gt dp.Value max then dp.Value else max
        else max) F64.negInf
    if max = F64.negInf then F64.fin 0 else max

/-- The loop of `Max` over a list of values: the running maximum from a start value. -/
def runningMax (values : List F64) (start : F64) : F64 :=
  values.foldl (fun (max : F64) v => if F64.gt v max then v else max) start

/-- The order of `sort.Float64s`, `x < y || (isNaN(x) && !isNaN(y))`: NaN before every
other value, the other values ascending. -/
def sortLess (x y : F64) : Bool := F64.lt x y || (x.isNaN && !y.isNaN)

/-- `sort.Float64s`: the values with none before one that is less in the order of the
sort. -/
def sortFloat64s (values : List F64) : List F64 :=
  values.insertionSort (fun x y => sortLess y x = false)

/-- Indexing `values[index]` with a machine integer: `none` is the run-time
panic of an index out of range. -/
def indexAt (values : List F64) (index : Int) : Option F64 :=
  if index < 0 then none else values.get? index.toNat

/-- `Aggregator.Percentile`.  The result is `none` when the indexing panics. -/
def Percentile (mc : MetricCollector) (now : Time) (name : String) (labels : Labels)
    (duration : Duration) (percentile : F64) : Option F64 :=
  match GetMetrics mc name labels with
  | none => some (F64.fin 0)
  | some series =>
    let values := series.Values.foldl
      (fun (values : List F64) dp =>
        if inWindow now duration dp then values ++ [dp.Value] else values) []
    if values.length = 0 then some (F64.fin 0)
    else
      let values := sortFloat64s values
      let index := toInt64 (rankIndex values.length percentile)
      let index := if index ≥ (values.length : Int) then (values.length : Int) - 1 else index
      indexAt values index

/-- `Aggregator.Rate`. -/
def Rate (mc : MetricCollector) (now : Time) (name : String) (labels : Labels)
    (duration : Duration) : F64 :=
  match GetMetrics mc name labels with
  | none => F64.fin 0
  | some series =>
    let count := series.Values.foldl
      (fun (count : Nat) dp => if inWindow now duration dp then count + 1 else count) 0
    F64.div (F64.ofInt count) (Duration.Seconds duration)

/-! ## Library functions used by the rule engine -/

/-- `unicode.IsSpace`, the separator test of `strings.Fields`. -/
def isSpace (c : Char) : Bool :=
  [9, 10, 11, 12, 13, 32, 0x85, 0xA0, 0x1680, 0x2028, 0x2029, 0x202F, 0x205F, 0x3000].elem c.toNat
    || (decide (0x2000 ≤ c.toNat) && decide (c.toNat ≤ 0x200A))

/-- Scan of `strings.Fields`: `cur` is the field being read, in reverse. -/
def fieldsAux : List Char → List Char → List String
  | [], cur => if cur.isEmpty then [] else [String.mk cur.reverse]
  | c :: cs, cur =>
    if isSpace c then
      if cur.isEmpty then fieldsAux cs [] else String.mk cur.reverse :: fieldsAux cs []
    else fieldsAux cs (c :: cur)

/-- `strings.Fields`: the maximal runs of non-space characters. -/
def Fields (s : String) : List String := fieldsAux s.data []

/-- Scan of `strings.Split(s, "=")`: `cur` is the piece being read, in reverse. -/
def splitAux : List Char → List Char → List String
  | [], cur => [String.mk cur.reverse]
  | c :: cs, cur =>
    if c = '=' then String.mk cur.reverse :: splitAux cs [] else splitAux cs (c :: cur)

/-- `strings.Split(s, "=")`: the pieces between the occurrences of `=`. -/
def splitEq (s : String) : List String := splitAux s.data []

/-- `strings.Contains(s, "=")`. -/
def containsEq (s : String) : Bool := s.data.elem '='

/-- The map assignment `labels[k] = v`: overwrite the entry of `k`, or add one. -/
def mapSet (labels : Labels) (k v : String) : Labels :=
  if labels.any (fun kv => kv.1 = k) then
    labels.map (fun kv => if kv.1 = k then (k, v) else kv)
  else labels ++ [(k, v)]

/-- What the engine takes from its run-time library: `time.ParseDuration`
(`none` is a parse error). -/
structure Runtime where
  parseDuration : String → Option Duration

/-- One traversal of a label map by `range`: the order in which it visits the entries,
each entry once.  Go draws the order anew at every traversal. -/
structure Traversal where
  order : Labels → Labels
  perm : ∀ labels, (order labels).Perm labels

/-! ## The rule engine (`internal/models/models.go`, `pkg/rules/engine.go`) -/

/-- The record `models.AlertRule`. -/
structure AlertRule where
  Name : String
  Query : String
  Threshold : F64
  Operator : String
  Duration : String
  Labels : Monitoring.Labels
  Annotations : Monitoring.Labels
  deriving DecidableEq, Repr

/-- The record `models.Alert`. -/
structure Alert where
  Rule : AlertRule
  Value : F64
  Timestamp : Time
  Status : String
  Labels : Labels
  deriving DecidableEq, Repr

/-- The buffered channel `alertChan` (`cmd/alerting/main.go` makes it with capacity
100): the alerts waiting in it, oldest first, and its capacity, which is at least 1.  A
send that Go hands over to a receiver waiting on the empty channel is a send into the
queue followed by a receive. -/
structure AlertChan where
  buffer : List Alert
  capacity : Nat
  buffered : 0 < capacity

/-- The consumer of the channel receives `k` alerts: the oldest `k` leave the buffer. -/
def AlertChan.receive (ch : AlertChan) (k : Nat) : AlertChan :=
  { ch with buffer := ch.buffer.drop k }

/-- The non-blocking send `select { case ch <- alert: default: }`: the alert is
queued when the buffer has room and dropped otherwise. -/
def AlertChan.trySend (ch : AlertChan) (alert : Alert) : AlertChan :=
  if ch.buffer.length < ch.capacity then { ch with buffer := ch.buffer ++ [alert] } else ch

/-- The record `Engine` (without its logger); the aggregator is the registry it reads. -/
structure Engine where
  rules : List AlertRule
  aggregator : MetricCollector
  alertChan : AlertChan

/-- `Engine.AddRule`. -/
def AddRule (e : Engine) (rule : AlertRule) : Engine := { e with rules := e.rules ++ [rule] }

/-- `Engine.LoadRules`. -/
def LoadRules (e : Engine) (rules : List AlertRule) : Engine := { e with rules := rules }

/-- The label loop of `Engine.executeQuery` over `parts[2:]`. -/
def parseLabels (parts : List String) : Labels :=
  parts.foldl
    (fun labels part =>
      if containsEq part then
        match splitEq part with
        | [k, v] => mapSet labels k v
        | _ => labels
      else labels) []

/-- `Engine.executeQuery`; `tr` is the traversal of the label map that the one call of
`generateKey` in this execution makes.  The ranks 95 and 99 keep the index of
`Percentile` in range on every window of fewer than `2^53` samples, more than memory
holds, so the default of `getD` stands for no run of the program. -/
def executeQuery (tr : Traversal) (mc : MetricCollector) (now : Time) (query : String)
    (duration : Duration) : F64 :=
  match Fields query with
  | function :: metricName :: rest =>
    let labels := tr.order (parseLabels rest)
    if function = "sum" then Sum mc now metricName labels duration
    else if function = "avg" then Average mc now metricName labels duration
    else if function = "max" then Max mc now metricName labels duration
    else if function = "rate" then Rate mc now metricName labels duration
    else if function = "p95" then (Percentile mc now metricName labels duration (F64.fin 95)).getD (F64.fin 0)
    else if function = "p99" then (Percentile mc now metricName labels duration (F64.fin 99)).getD (F64.fin 0)
    else F64.fin 0
  | _ => F64.fin 0

/-- The operator switch of `Engine.evaluateRule`: `none` is the `default` branch. -/
def compareOp (operator : String) (value threshold : F64) : Option Bool :=
  if operator = ">" then some (F64.gt value threshold)
  else if operator = ">=" then some (F64.ge value threshold)
  else if operator = "<" then some (F64.lt value threshold)
  else if operator = "<=" then some (F64.le value threshold)
  else if operator = "==" then some (F64.eq value threshold)
  else if operator = "!=" then some (F64.ne value threshold)
  else none

/-- `Engine.evaluateRule`: `none` is the `nil` result. -/
def evaluateRule (rt : Runtime) (tr : Traversal) (mc : MetricCollector) (now : Time)
    (rule : AlertRule) : Option Alert :=
  match rt.parseDuration rule.Duration with
  | none => none
  | some duration =>
    let value := executeQuery tr mc now rule.Query duration
    match compareOp rule.Operator value rule.Threshold with
    | none => none
    | some triggered =>
      if triggered then
        some { Rule := rule, Value := value, Timestamp := now, Status := "firing",
               Labels := rule.Labels }
      else none

/-- What the surroundings of the engine do during one pass, rule by rule: `clock i`
is the time at which the `i`-th rule is evaluated, `order i` the traversal of its label
map, and `taken i` the number of alerts the consumer of the channel has received since
the send before, when the `i`-th rule sends. -/
structure Pass where
  clock : Nat → Time
  order : Nat → Traversal
  taken : Nat → Nat

/-- The loop of `Engine.evaluateRules` from the `i`-th rule on. -/
def evaluateRulesFrom (rt : Runtime) (mc : MetricCollector) (pass : Pass) :
    Nat → List AlertRule → AlertChan → AlertChan
  | _, [], ch => ch
  | i, rule :: rest, ch =>
    match evaluateRule rt (pass.order i) mc (pass.clock i) rule with
    | some alert =>
      evaluateRulesFrom rt mc pass (i + 1) rest ((ch.receive (pass.taken i)).trySend alert)
    | none => evaluateRulesFrom rt mc pass (i + 1) rest ch

/-- `Engine.evaluateRules`: one pass over the rules. -/
def evaluateRules (rt : Runtime) (pass : Pass) (e : Engine) : Engine :=
  { e with alertChan := evaluateRulesFrom rt e.aggregator pass 0 e.rules e.alertChan }

/-! ## The comparisons of a rule, as the specification words them -/

/-- The six comparison operators a rule may carry. -/
inductive Operator where
  | gt
  | ge
  | lt
  | le
  | eq
  | ne
  deriving DecidableEq, Repr

/-- How a rule writes an operator. -/
def Operator.symbol : Operator → String
  | .gt => ">"
  | .ge => ">="
  | .lt => "<"
  | .le => "<="
  | .eq => "=="
  | .ne => "!="

/-- The condition `value <operator> threshold` on floats. -/
def Operator.holds : Operator → F64 → F64 → Bool
  | .gt, value, threshold => F64.gt value threshold
  | .ge, value, threshold => F64.ge value threshold
  | .lt, value, threshold => F64.lt value threshold
  | .le, value, threshold => F64.le value threshold
  | .eq, value, threshold => F64.eq value threshold
  | .ne, value, threshold => F64.ne value threshold

/-- The alert `Engine.evaluateRule` builds for a rule that fires. -/
def firingAlert (rule : AlertRule) (value : F64) (now : Time) : Alert :=
  { Rule := rule, Value := value, Timestamp := now, Status := "firing", Labels := rule.Labels }

/-- The alerts the rules of a pass produce from the `i`-th rule on, in rule order,
before any is dropped. -/
def firingAlerts (rt : Runtime) (mc : MetricCollector) (pass : Pass) :
    Nat → List AlertRule → List Alert
  | _, [] => []
  | i, rule :: rest =>
    match evaluateRule rt (pass.order i) mc (pass.clock i) rule with
    | some alert => alert :: firingAlerts rt mc pass (i + 1) rest
    | none => firingAlerts rt mc pass (i + 1) rest

/-- The function names `Engine.executeQuery` dispatches on. -/
def knownFunctions : List String := ["sum", "avg", "max", "rate", "p95", "p99"]

/-! ## The label filter of a query, as the specification words it -/

/-- Number of `=` in a token. -/
def countEq (tok : String) : Nat := tok.data.count '='

/-- A token with exactly one `=` is a label: the text before the `=` is the key, the text
after it the value.  Any other token is no label. -/
def keyValue (tok : String) : Option (String × String) :=
  if countEq tok = 1 then
    some (String.mk (tok.data.takeWhile (fun c => c != '=')),
      String.mk ((tok.data.dropWhile (fun c => c != '=')).drop 1))
  else none

/-- The label filter of a query: the labels among the tokens after the metric name,
assigned in order. -/
def labelFilter (rest : List String) : Labels :=
  (rest.filterMap keyValue).foldl (fun labels kv => mapSet labels kv.1 kv.2) []

/-! ## A run-time environment -/

/-- Nanoseconds of a unit of `time.ParseDuration`. -/
def unitNanos (unit : String) : Option Duration :=
  if unit = "ns" then some 1
  else if unit = "us" then some 1000
  else if unit = "ms" then some 1000000
  else if unit = "s" then some 1000000000
  else if unit = "m" then some (60 * 1000000000)
  else if unit = "h" then some hour
  else none

/-- The fragment `<digits><unit>` of `time.ParseDuration`; everything else is
rejected. -/
def parseDigitsUnit (s : String) : Option Duration :=
  let digits := s.data.takeWhile Char.isDigit
  let unit := s.data.dropWhile Char.isDigit
  if digits.isEmpty then none
  else
    (unitNanos (String.mk unit)).map
      (fun u => u * (digits.foldl (fun n c => 10 * n + (c.toNat - 48)) 0 : Nat))

/-- A library: the duration fragment above. -/
def sampleRuntime : Runtime := { parseDuration := parseDigitsUnit }

/-- The traversal that visits a map in insertion order. -/
def inOrder : Traversal := { order := id, perm := fun _ => List.Perm.refl _ }

/-- The traversal that visits a map in the reverse of insertion order. -/
def reversed : Traversal := { order := List.reverse, perm := fun labels => List.reverse_perm labels }

/-- A pass at time 100, with maps traversed in insertion order and a consumer that
receives nothing. -/
def quietPass : Pass := { clock := fun _ => 100, order := fun _ => inOrder, taken := fun _ => 0 }

/-! ## Example data -/

/-- A registry holding one series `m` with the samples 40, 10, 30, 20, all stamped 99. -/
def fourSamples : MetricCollector :=
  RecordMetric 100 (RecordMetric 100 (RecordMetric 100 (RecordMetric 100 NewMetricCollector
    ⟨"m", F64.fin 40, 99, [], "gauge"⟩) ⟨"m", F64.fin 10, 99, [], "gauge"⟩)
    ⟨"m", F64.fin 30, 99, [], "gauge"⟩) ⟨"m", F64.fin 20, 99, [], "gauge"⟩

/-- The series `m` of `fourSamples`. -/
def fourSamplesSeries : MetricSeries :=
  { Name := "m", Type_ := "gauge", Labels := [],
    Values := [⟨F64.fin 40, 99⟩, ⟨F64.fin 10, 99⟩, ⟨F64.fin 30, 99⟩, ⟨F64.fin 20, 99⟩] }

/-- The rule of the specification: average CPU usage of `web1` above 80 over five minutes. -/
def cpuRule : AlertRule :=
  { Name := "HighCPU", Query := "avg cpu_usage host=web1", Threshold := F64.fin 80,
    Operator := ">", Duration := "5m", Labels := [], Annotations := [] }

/-- A registry where `cpu_usage{host=web1}` holds the samples 90 and 71 (average 80.5). -/
def cpuAbove : MetricCollector :=
  RecordMetric 100 (RecordMetric 100 NewMetricCollector
    ⟨"cpu_usage", F64.fin 90, 99, [("host", "web1")], "gauge"⟩)
    ⟨"cpu_usage", F64.fin 71, 99, [("host", "web1")], "gauge"⟩

/-- A registry where `cpu_usage{host=web1}` holds the samples 90 and 70 (average exactly 80). -/
def cpuExact : MetricCollector :=
  RecordMetric 100 (RecordMetric 100 NewMetricCollector
    ⟨"cpu_usage", F64.fin 90, 99, [("host", "web1")], "gauge"⟩)
    ⟨"cpu_usage", F64.fin 70, 99, [("host", "web1")], "gauge"⟩

/-- Two enumerations of the label set `{a: 1, b: 2}`. -/
def labelsAB : Labels := [("a", "1"), ("b", "2")]

/-- The same label set, visited the other way round. -/
def labelsBA : Labels := [("b", "2"), ("a", "1")]

/-- Two calls for the identity `cpu{a=1,b=2}`, whose traversals visit the labels in
opposite orders. -/
def twoCalls : List (Time × Metric) :=
  [(100, ⟨"cpu", F64.fin 1, 99, labelsAB, "gauge"⟩), (100, ⟨"cpu", F64.fin 2, 99, labelsBA, "gauge"⟩)]

/-- A registry whose series `m` holds one sample, stamped 99. -/
def oneSample : MetricCollector :=
  RecordMetric 100 NewMetricCollector ⟨"m", F64.fin 40, 99, [], "gauge"⟩

/-- The series `m` of `oneSample`. -/
def oneSampleSeries : MetricSeries :=
  { Name := "m", Type_ := "gauge", Labels := [], Values := [⟨F64.fin 40, 99⟩] }

/-- A registry whose series `temp` holds the samples -5, -3 and -9, all stamped 99. -/
def negativeSamples : MetricCollector :=
  RecordMetric 100 (RecordMetric 100 (RecordMetric 100 NewMetricCollector
    ⟨"temp", F64.fin (-5), 99, [], "gauge"⟩) ⟨"temp", F64.fin (-3), 99, [], "gauge"⟩)
    ⟨"temp", F64.fin (-9), 99, [], "gauge"⟩

/-- The series `temp` of `negativeSamples`. -/
def negativeSamplesSeries : MetricSeries :=
  { Name := "temp", Type_ := "gauge", Labels := [],
    Values := [⟨F64.fin (-5), 99⟩, ⟨F64.fin (-3), 99⟩, ⟨F64.fin (-9), 99⟩] }

/-- A rule whose query names a function the engine does not know. -/
def medianRule : AlertRule :=
  { Name := "LowMedian", Query := "median cpu_usage", Threshold := F64.fin 1, Operator := "<",
    Duration := "5m", Labels := [], Annotations := [] }

/-- A rule that fires on the registry `negativeSamples`: the maximum of `temp` is below 0. -/
def coldRule : AlertRule :=
  { Name := "Cold", Query := "max temp", Threshold := F64.fin 0, Operator := "<",
    Duration := "1h", Labels := [], Annotations := [] }

/-- A second rule that fires on the registry `negativeSamples`. -/
def chillyRule : AlertRule :=
  { Name := "Chilly", Query := "max temp", Threshold := F64.fin 5, Operator := "<=",
    Duration := "1h", Labels := [], Annotations := [] }

/-- A third rule that fires on the registry `negativeSamples`. -/
def frostRule : AlertRule :=
  { Name := "Frost", Query := "max temp", Threshold := F64.fin (-3), Operator := "==",
    Duration := "1h", Labels := [], Annotations := [] }

/-- A rule that never fires on the registry `negativeSamples`. -/
def hotRule : AlertRule :=
  { Name := "Hot", Query := "max temp", Threshold := F64.fin 30, Operator := ">",
    Duration := "1h", Labels := [], Annotations := [] }

/-- A rule with an operator the engine does not know. -/
def badOperatorRule : AlertRule :=
  { Name := "Cold", Query := "max temp", Threshold := F64.fin 0, Operator := "=<",
    Duration := "1h", Labels := [], Annotations := [] }

/-- A rule whose duration does not parse. -/
def badDurationRule : AlertRule :=
  { Name := "Cold", Query := "max temp", Threshold := F64.fin 0, Operator := "<",
    Duration := "one hour", Labels := [], Annotations := [] }

/-- An engine over `negativeSamples` with an empty alert channel of capacity 1 and four
rules, three of which fire. -/
def smallEngine : Engine :=
  { rules := [coldRule, chillyRule, hotRule, frostRule], aggregator := negativeSamples,
    alertChan := { buffer := [], capacity := 1, buffered := Nat.one_pos } }

/-- A pass at time 100 during which the consumer receives one alert between the second
rule and the fourth, and nothing else. -/
def lateConsumer : Pass :=
  { clock := fun _ => 100, order := fun _ => inOrder, taken := fun i => if i = 3 then 1 else 0 }

/-- An engine over `negativeSamples` whose rule list holds two malformed rules. -/
def mixedEngine : Engine :=
  { rules := [badOperatorRule, coldRule, badDurationRule], aggregator := negativeSamples,
    alertChan := { buffer := [], capacity := 2, buffered := Nat.two_pos } }

/-- A registry read at time 20 s: the series `req` holds one sample stamped 5 s, one stamped
exactly 10 s, and five stamped 11 s to 15 s, with assorted values. -/
def sevenRequests : MetricCollector :=
  recordAll NewMetricCollector
    [(20000000000, ⟨"req", F64.fin 7, 5000000000, [], "counter"⟩),
     (20000000000, ⟨"req", F64.fin 5, 10000000000, [], "counter"⟩),
     (20000000000, ⟨"req", F64.fin 1, 11000000000, [], "counter"⟩),
     (20000000000, ⟨"req", F64.fin 2, 12000000000, [], "counter"⟩),
     (20000000000, ⟨"req", F64.fin (-4), 13000000000, [], "counter"⟩),
     (20000000000, ⟨"req", F64.fin 100, 14000000000, [], "counter"⟩),
     (20000000000, ⟨"req", F64.fin 0, 15000000000, [], "counter"⟩)]

/-- The series `req` of `sevenRequests`. -/
def sevenRequestsSeries : MetricSeries :=
  { Name := "req", Type_ := "counter", Labels := [],
    Values := [⟨F64.fin 7, 5000000000⟩, ⟨F64.fin 5, 10000000000⟩, ⟨F64.fin 1, 11000000000⟩,
      ⟨F64.fin 2, 12000000000⟩, ⟨F64.fin (-4), 13000000000⟩, ⟨F64.fin 100, 14000000000⟩,
      ⟨F64.fin 0, 15000000000⟩] }

/-- The series `lat`: the samples 14, 0, 1, 2, 3, 4 and 5, all stamped 99. -/
def sevenLatenciesSeries : MetricSeries :=
  { Name := "lat", Type_ := "gauge", Labels := [],
    Values := [⟨F64.fin 14, 99⟩, ⟨F64.fin 0, 99⟩, ⟨F64.fin 1, 99⟩, ⟨F64.fin 2, 99⟩,
      ⟨F64.fin 3, 99⟩, ⟨F64.fin 4, 99⟩, ⟨F64.fin 5, 99⟩] }

/-- A registry holding the series `lat`, recorded at time 100. -/
def sevenLatencies : MetricCollector :=
  recordAll NewMetricCollector
    [(100, ⟨"lat", F64.fin 14, 99, [], "gauge"⟩), (100, ⟨"lat", F64.fin 0, 99, [], "gauge"⟩),
     (100, ⟨"lat", F64.fin 1, 99, [], "gauge"⟩), (100, ⟨"lat", F64.fin 2, 99, [], "gauge"⟩),
     (100, ⟨"lat", F64.fin 3, 99, [], "gauge"⟩), (100, ⟨"lat", F64.fin 4, 99, [], "gauge"⟩),
     (100, ⟨"lat", F64.fin 5, 99, [], "gauge"⟩)]

/-- The double nearest to 100/7, `14.285714285714285`: it lies just below 100/7. -/
def rankSeventh : ℚ := 2010535547933257 / 140737488355328

/-- The series `big`: the samples `2^53` and 1, both stamped 99. -/
def bigAndOneSeries : MetricSeries :=
  { Name := "big", Type_ := "counter", Labels := [],
    Values := [⟨F64.fin 9007199254740992, 99⟩, ⟨F64.fin 1, 99⟩] }

/-- A registry holding the series `big`, recorded at time 100. -/
def bigAndOne : MetricCollector :=
  recordAll NewMetricCollector
    [(100, ⟨"big", F64.fin 9007199254740992, 99, [], "counter"⟩),
     (100, ⟨"big", F64.fin 1, 99, [], "counter"⟩)]

/-- The series `low`: one sample of value negative infinity, stamped 99. -/
def onlyNegInfSeries : MetricSeries :=
  { Name := "low", Type_ := "gauge", Labels := [], Values := [⟨F64.negInf, 99⟩] }

/-- A registry holding the series `low`. -/
def onlyNegInf : MetricCollector :=
  RecordMetric 100 NewMetricCollector ⟨"low", F64.negInf, 99, [], "gauge"⟩

/-- The series `odd`: the samples NaN and 5, both stamped 99. -/
def nanAndFiveSeries : MetricSeries :=
  { Name := "odd", Type_ := "gauge", Labels := [], Values := [⟨F64.nan, 99⟩, ⟨F64.fin 5, 99⟩] }

/-- A registry holding the series `odd`. -/
def nanAndFive : MetricCollector :=
  RecordMetric 100 (RecordMetric 100 NewMetricCollector ⟨"odd", F64.nan, 99, [], "gauge"⟩)
    ⟨"odd", F64.fin 5, 99, [], "gauge"⟩

/-- A registry where the series of `cpu{a=1,b=2}` was recorded by a traversal that visited
`a` first: the samples 90 and 71 under the key `cpu__a=1__b=2`. -/
def cpuTwoLabels : MetricCollector :=
  RecordMetric 100 (RecordMetric 100 NewMetricCollector
    ⟨"cpu", F64.fin 90, 99, labelsAB, "gauge"⟩) ⟨"cpu", F64.fin 71, 99, labelsAB, "gauge"⟩

/-! ## Facts about machine integers -/

/-- The negation of an `int64` other than the least one is its opposite. -/
theorem negInt64_eq (d : Int) (hlow : minInt64 < d) (hhigh : d < -minInt64) :
    negInt64 d = -d := by
  unfold negInt64 wrapInt64
  unfold minInt64 at hlow hhigh
  omega

/-- The least `int64` is its own negation. -/
theorem negInt64_minInt64 : negInt64 minInt64 = minInt64 := by decide

/-! ## Facts about rounding -/

/-- Rounding to an integer moves a number by at most one half. -/
theorem roundHalfEven_near (z : ℚ) :
    z - 1 / 2 ≤ (roundHalfEven z : ℚ) ∧ (roundHalfEven z : ℚ) ≤ z + 1 / 2 := by
  have hfl : (⌊z⌋ : ℚ) ≤ z := Int.floor_le z
  have hlt : z < (⌊z⌋ : ℚ) + 1 := Int.lt_floor_add_one z
  unfold roundHalfEven
  split_ifs with h1 h2 h3
  · constructor <;> linarith
  · push_cast; constructor <;> linarith
  · constructor <;> linarith
  · push_cast; constructor <;> linarith

/-- Rounding to an integer is between the floor and its successor. -/
theorem roundHalfEven_floor (z : ℚ) :
    ⌊z⌋ ≤ roundHalfEven z ∧ roundHalfEven z ≤ ⌊z⌋ + 1 := by
  unfold roundHalfEven
  split_ifs <;> omega

/-- An integer rounds to itself. -/
theorem roundHalfEven_intCast (n : Int) : roundHalfEven (n : ℚ) = n := by
  unfold roundHalfEven
  simp

/-- A number less than one half away from an integer rounds to it. -/
theorem roundHalfEven_eq_of_near (z : ℚ) (r : Int) (hlow : (r : ℚ) - 1 / 2 < z)
    (hhigh : z < (r : ℚ) + 1 / 2) : roundHalfEven z = r := by
  have hnear := roundHalfEven_near z
  have h1 : ((roundHalfEven z : Int) : ℚ) < (r : ℚ) + 1 := by linarith [hnear.2]
  have h2 : (r : ℚ) - 1 < ((roundHalfEven z : Int) : ℚ) := by linarith [hnear.1]
  have h3 : roundHalfEven z < r + 1 := by exact_mod_cast h1
  have h4 : r - 1 < roundHalfEven z := by exact_mod_cast h2
  omega

/-- Half way above an even integer, a number rounds down to it. -/
theorem roundHalfEven_eq_of_tie_above (z : ℚ) (r : Int) (hz : z = (r : ℚ) + 1 / 2)
    (heven : r % 2 = 0) : roundHalfEven z = r := by
  have hfloor : ⌊z⌋ = r := by
    rw [Int.floor_eq_iff]
    constructor <;> linarith
  unfold roundHalfEven
  rw [hfloor, hz]
  norm_num [heven]

/-- Half way below an even integer, a number rounds up to it. -/
theorem roundHalfEven_eq_of_tie_below (z : ℚ) (r : Int) (hz : z = (r : ℚ) - 1 / 2)
    (heven : r % 2 = 0) : roundHalfEven z = r := by
  have hfloor : ⌊z⌋ = r - 1 := by
    rw [Int.floor_eq_iff]
    push_cast
    constructor <;> linarith
  have hodd : ¬ (r - 1) % 2 = 0 := by omega
  unfold roundHalfEven
  rw [hfloor, hz]
  push_cast
  norm_num [hodd]

/-- Rounding to an integer keeps the order. -/
theorem roundHalfEven_mono (z w : ℚ) (h : z ≤ w) : roundHalfEven z ≤ roundHalfEven w := by
  have hfl : ⌊z⌋ ≤ ⌊w⌋ := Int.floor_le_floor h
  rcases lt_or_eq_of_le hfl with hlt | heq
  · have h1 := (roundHalfEven_floor z).2
    have h2 := (roundHalfEven_floor w).1
    omega
  · unfold roundHalfEven
    rw [heq]
    split_ifs with a1 a2 a3 b1 b2 b3 c1 c2 c3 <;> first | omega | (exfalso; linarith)

/-- The base of the doubles, as a rational. -/
theorem two_cast : ((2 : ℕ) : ℚ) = 2 := by norm_num

/-- A positive number is below the top of its binade. -/
theorem lt_binade_top (x : ℚ) (hx : 0 < x) : x < 2 ^ (binade x + 1) := by
  have h := Int.lt_zpow_succ_log_self (b := 2) (by norm_num) |x|
  rw [two_cast, abs_of_pos hx] at h
  have hle : Int.log 2 x + 1 ≤ binade x + 1 := by
    unfold binade
    rw [abs_of_pos hx]
    have := le_max_left (Int.log 2 x) (-1022)
    omega
  exact lt_of_lt_of_le h (zpow_le_zpow_right₀ (by norm_num) hle)

/-- A positive number is subnormal or at least the bottom of its binade. -/
theorem binade_bottom_le (x : ℚ) (hx : 0 < x) (h : binade x ≠ -1022) :
    2 ^ binade x ≤ x := by
  have hlog : binade x = Int.log 2 |x| := by
    unfold binade at h ⊢
    rcases max_cases (Int.log 2 |x|) (-1022) with hc | hc
    · exact hc.1
    · exact absurd hc.1 h
  have hz := Int.zpow_log_le_self (b := 2) (r := |x|) (by norm_num) (abs_pos.mpr (ne_of_gt hx))
  rw [two_cast, abs_of_pos hx] at hz
  rw [hlog, abs_of_pos hx]
  exact hz

/-- The binade of a positive number is never below -1022. -/
theorem binade_ge (x : ℚ) : -1022 ≤ binade x := le_max_right _ _

/-- The binade of a positive number, from its bounds. -/
theorem binade_eq (x : ℚ) (E : Int) (hx : 0 < x) (hE : -1022 ≤ E) (hlow : 2 ^ E ≤ x)
    (hhigh : x < 2 ^ (E + 1)) : binade x = E := by
  have h1 : E ≤ Int.log 2 |x| := by
    rw [← Int.zpow_le_iff_le_log (by norm_num) (abs_pos.mpr (ne_of_gt hx)), two_cast,
      abs_of_pos hx]
    exact hlow
  have h2 : Int.log 2 |x| < E + 1 := by
    rw [← Int.lt_zpow_iff_log_lt (by norm_num) (abs_pos.mpr (ne_of_gt hx)), two_cast,
      abs_of_pos hx]
    exact hhigh
  unfold binade
  rw [max_eq_left (by omega)]
  omega

/-- The binade grows with a positive number. -/
theorem binade_mono (x y : ℚ) (hx : 0 < x) (h : x ≤ y) : binade x ≤ binade y := by
  unfold binade
  have hlog : Int.log 2 |x| ≤ Int.log 2 |y| := by
    rw [abs_of_pos hx, abs_of_pos (lt_of_lt_of_le hx h)]
    exact Int.log_mono_right hx h
  exact max_le_max hlog le_rfl

/-- The spacing of the doubles is positive. -/
theorem quantum_pos (x : ℚ) : 0 < quantum x := by
  unfold quantum
  positivity

/-- The top of a binade is `2^53` spacings. -/
theorem quantum_mul_top (x : ℚ) : (2 : ℚ) ^ 53 * quantum x = 2 ^ (binade x + 1) := by
  unfold quantum
  have h : (2 : ℚ) ^ 53 = 2 ^ (53 : ℤ) := by norm_num
  rw [h, ← zpow_add₀ (by norm_num : (2 : ℚ) ≠ 0)]
  congr 1
  omega

/-- The bottom of a binade is `2^52` spacings. -/
theorem quantum_mul_bottom (x : ℚ) : (2 : ℚ) ^ 52 * quantum x = 2 ^ binade x := by
  unfold quantum
  have h : (2 : ℚ) ^ 52 = 2 ^ (52 : ℤ) := by norm_num
  rw [h, ← zpow_add₀ (by norm_num : (2 : ℚ) ≠ 0)]
  congr 1
  omega

/-- Zero rounds to zero. -/
theorem roundToGrid_zero : roundToGrid 0 = 0 := by
  unfold roundToGrid
  rw [zero_div]
  have h : roundHalfEven 0 = 0 := roundHalfEven_intCast 0
  rw [h]
  simp

/-- A number that is not negative rounds to one that is not negative. -/
theorem roundToGrid_nonneg (x : ℚ) (hx : 0 ≤ x) : 0 ≤ roundToGrid x := by
  unfold roundToGrid
  have hq := quantum_pos x
  have hz : (0 : ℚ) ≤ x / quantum x := div_nonneg hx (le_of_lt hq)
  have h0 : roundHalfEven 0 = 0 := roundHalfEven_intCast 0
  have hr : 0 ≤ roundHalfEven (x / quantum x) := h0 ▸ roundHalfEven_mono 0 _ hz
  have hrq : (0 : ℚ) ≤ (roundHalfEven (x / quantum x) : ℚ) := by exact_mod_cast hr
  exact mul_nonneg hrq (le_of_lt hq)

/-- A positive number rounds to at most the top of its binade. -/
theorem roundToGrid_le_top (x : ℚ) (hx : 0 < x) : roundToGrid x ≤ 2 ^ (binade x + 1) := by
  have hq := quantum_pos x
  have hz : x / quantum x ≤ (((2 : Int) ^ 53 : Int) : ℚ) := by
    rw [div_le_iff₀ hq]
    have hlt := lt_binade_top x hx
    rw [← quantum_mul_top] at hlt
    push_cast
    exact le_of_lt hlt
  have hr : roundHalfEven (x / quantum x) ≤ (2 : Int) ^ 53 := by
    have := roundHalfEven_mono _ _ hz
    rwa [roundHalfEven_intCast] at this
  have hrq : (roundHalfEven (x / quantum x) : ℚ) ≤ (2 : ℚ) ^ 53 := by exact_mod_cast hr
  unfold roundToGrid
  rw [← quantum_mul_top]
  exact mul_le_mul_of_nonneg_right hrq (le_of_lt hq)

/-- A positive normal number rounds to at least the bottom of its binade. -/
theorem bottom_le_roundToGrid (x : ℚ) (hx : 0 < x) (h : binade x ≠ -1022) :
    2 ^ binade x ≤ roundToGrid x := by
  have hq := quantum_pos x
  have hz : (((2 : Int) ^ 52 : Int) : ℚ) ≤ x / quantum x := by
    rw [le_div_iff₀ hq]
    have hle := binade_bottom_le x hx h
    rw [← quantum_mul_bottom] at hle
    push_cast
    exact hle
  have hr : (2 : Int) ^ 52 ≤ roundHalfEven (x / quantum x) := by
    have := roundHalfEven_mono _ _ hz
    rwa [roundHalfEven_intCast] at this
  have hrq : (2 : ℚ) ^ 52 ≤ (roundHalfEven (x / quantum x) : ℚ) := by exact_mod_cast hr
  unfold roundToGrid
  rw [← quantum_mul_bottom]
  exact mul_le_mul_of_nonneg_right hrq (le_of_lt hq)

/-- Rounding keeps the order of numbers that are not negative. -/
theorem roundToGrid_mono (x y : ℚ) (hx : 0 ≤ x) (h : x ≤ y) :
    roundToGrid x ≤ roundToGrid y := by
  rcases eq_or_lt_of_le hx with h0 | hpos
  · rw [← h0, roundToGrid_zero]
    exact roundToGrid_nonneg y (le_trans hx h)
  · have hy : 0 < y := lt_of_lt_of_le hpos h
    rcases lt_or_eq_of_le (binade_mono x y hpos h) with hlt | heq
    · have hne : binade y ≠ -1022 := by
        have := binade_ge x
        omega
      calc roundToGrid x ≤ 2 ^ (binade x + 1) := roundToGrid_le_top x hpos
        _ ≤ 2 ^ binade y := zpow_le_zpow_right₀ (by norm_num) (by omega)
        _ ≤ roundToGrid y := bottom_le_roundToGrid y hy hne
    · have hq : quantum x = quantum y := by unfold quantum; rw [heq]
      have hqp := quantum_pos y
      unfold roundToGrid
      rw [hq]
      have hz : x / quantum y ≤ y / quantum y := div_le_div_of_nonneg_right h (le_of_lt hqp)
      have hr := roundHalfEven_mono _ _ hz
      have hrq : (roundHalfEven (x / quantum y) : ℚ) ≤ (roundHalfEven (y / quantum y) : ℚ) := by
        exact_mod_cast hr
      exact mul_le_mul_of_nonneg_right hrq (le_of_lt hqp)

/-- A rounded value inside the range of the doubles is the float. -/
theorem round_eq_fin (x : ℚ) (hlow : -(2 : ℚ) ^ 1024 < roundToGrid x)
    (hhigh : roundToGrid x < (2 : ℚ) ^ 1024) : F64.round x = F64.fin (roundToGrid x) := by
  unfold F64.round
  rw [if_neg (not_le.mpr hhigh), if_neg (not_le.mpr hlow)]

/-- A number that is not negative rounds to positive infinity or to a float that is not
negative. -/
theorem round_of_nonneg (x : ℚ) (hx : 0 ≤ x) :
    F64.round x = F64.posInf ∨ (F64.round x = F64.fin (roundToGrid x) ∧ 0 ≤ roundToGrid x) := by
  have h0 := roundToGrid_nonneg x hx
  by_cases h : (2 : ℚ) ^ 1024 ≤ roundToGrid x
  · left
    unfold F64.round
    rw [if_pos h]
  · right
    refine ⟨round_eq_fin x ?_ (not_le.mp h), h0⟩
    have : (0 : ℚ) < (2 : ℚ) ^ 1024 := by positivity
    linarith

/-- Rounding keeps the order of numbers that are not negative: below a finite result
there are finite results only, and no larger. -/
theorem round_mono (x y b : ℚ) (hx : 0 ≤ x) (h : x ≤ y) (hy : F64.round y = F64.fin b) :
    ∃ a, F64.round x = F64.fin a ∧ 0 ≤ a ∧ a ≤ b := by
  have hmono := roundToGrid_mono x y hx h
  rcases round_of_nonneg y (le_trans hx h) with hinf | ⟨hfin, _⟩
  · rw [hinf] at hy
    exact absurd hy (by simp)
  · have hb : roundToGrid y = b := by
      rw [hfin] at hy
      exact F64.fin.inj hy
    have hylt : roundToGrid y < (2 : ℚ) ^ 1024 := by
      by_contra hcon
      have : F64.round y = F64.posInf := by
        unfold F64.round
        rw [if_pos (not_lt.mp hcon)]
      rw [this] at hy
      exact absurd hy (by simp)
    rcases round_of_nonneg x hx with hinf | ⟨hfinx, h0⟩
    · exfalso
      unfold F64.round at hinf
      by_cases hc : (2 : ℚ) ^ 1024 ≤ roundToGrid x
      · linarith
      · rw [if_neg hc] at hinf
        split_ifs at hinf
    · exact ⟨roundToGrid x, hfinx, h0, hb ▸ hmono⟩

/-- A binary fraction of at most 53 digits, not below the least subnormal, is on the
grid of the doubles. -/
theorem roundToGrid_of_dyadic (m k : Int) (hm : |m| < 2 ^ 53) (hk : -1074 ≤ k) :
    roundToGrid ((m : ℚ) * 2 ^ k) = (m : ℚ) * 2 ^ k := by
  by_cases hm0 : m = 0
  · subst hm0
    simp [roundToGrid_zero]
  · have hpow : (0 : ℚ) < 2 ^ k := by positivity
    have hmq : (m : ℚ) ≠ 0 := by exact_mod_cast hm0
    have hxne : (m : ℚ) * 2 ^ k ≠ 0 := mul_ne_zero hmq (ne_of_gt hpow)
    have habs : |(m : ℚ) * 2 ^ k| < 2 ^ (k + 53) := by
      rw [abs_mul, abs_of_pos hpow, zpow_add₀ (by norm_num : (2 : ℚ) ≠ 0), mul_comm]
      have h1 : |(m : ℚ)| < (2 : ℚ) ^ (53 : ℤ) := by
        have : ((|m| : Int) : ℚ) < ((2 ^ 53 : Int) : ℚ) := by exact_mod_cast hm
        rw [Int.cast_abs] at this
        norm_num at this ⊢
        exact this
      exact mul_lt_mul_of_pos_left h1 hpow
    have hlog : Int.log 2 |(m : ℚ) * 2 ^ k| < k + 53 := by
      rw [← Int.lt_zpow_iff_log_lt (by norm_num) (abs_pos.mpr hxne), two_cast]
      exact habs
    have hE : binade ((m : ℚ) * 2 ^ k) ≤ k + 52 := by
      unfold binade
      exact max_le (by omega) (by omega)
    obtain ⟨n, hn⟩ : ∃ n : ℕ, k - (binade ((m : ℚ) * 2 ^ k) - 52) = n :=
      ⟨(k - (binade ((m : ℚ) * 2 ^ k) - 52)).toNat, by omega⟩
    have hdiv : (m : ℚ) * 2 ^ k / quantum ((m : ℚ) * 2 ^ k) = ((m * 2 ^ n : Int) : ℚ) := by
      unfold quantum
      rw [mul_div_assoc, ← zpow_sub₀ (by norm_num : (2 : ℚ) ≠ 0), hn, zpow_natCast]
      push_cast
      rfl
    unfold roundToGrid
    rw [hdiv, roundHalfEven_intCast, ← hdiv]
    exact div_mul_cancel₀ _ (ne_of_gt (quantum_pos _))

/-- A binary fraction of at most 53 digits inside the exponent range is a double. -/
theorem round_of_dyadic (m k : Int) (hm : |m| < 2 ^ 53) (hk : -1074 ≤ k) (hk2 : k ≤ 970) :
    F64.round ((m : ℚ) * 2 ^ k) = F64.fin ((m : ℚ) * 2 ^ k) := by
  have hgrid := roundToGrid_of_dyadic m k hm hk
  have hpow : (0 : ℚ) < 2 ^ k := by positivity
  have habs : |(m : ℚ) * 2 ^ k| < (2 : ℚ) ^ 1024 := by
    rw [abs_mul, abs_of_pos hpow]
    have h1 : |(m : ℚ)| < (2 : ℚ) ^ (53 : ℤ) := by
      have : ((|m| : Int) : ℚ) < ((2 ^ 53 : Int) : ℚ) := by exact_mod_cast hm
      rw [Int.cast_abs] at this
      norm_num at this ⊢
      exact this
    have h2 : (2 : ℚ) ^ k ≤ 2 ^ (970 : ℤ) := zpow_le_zpow_right₀ (by norm_num) hk2
    have h3 : (2 : ℚ) ^ (53 : ℤ) * 2 ^ (970 : ℤ) = 2 ^ (1023 : ℤ) := by
      rw [← zpow_add₀ (by norm_num : (2 : ℚ) ≠ 0)]
      norm_num
    have h4 : (2 : ℚ) ^ (1023 : ℤ) < (2 : ℚ) ^ 1024 := by
      have : (2 : ℚ) ^ 1024 = 2 ^ (1024 : ℤ) := by norm_num
      rw [this]
      exact zpow_lt_zpow_right₀ (by norm_num) (by norm_num)
    calc |(m : ℚ)| * 2 ^ k ≤ |(m : ℚ)| * 2 ^ (970 : ℤ) :=
          mul_le_mul_of_nonneg_left h2 (abs_nonneg _)
      _ ≤ (2 : ℚ) ^ (53 : ℤ) * 2 ^ (970 : ℤ) :=
          mul_le_mul_of_nonneg_right (le_of_lt h1) (by positivity)
      _ = 2 ^ (1023 : ℤ) := h3
      _ < (2 : ℚ) ^ 1024 := h4
  have hb := abs_lt.mp habs
  rw [← hgrid] at hb
  rw [round_eq_fin _ hb.1 hb.2, hgrid]

/-- An integer of at most 53 binary digits is a double. -/
theorem round_intCast (n : Int) (hn : |n| < 2 ^ 53) : F64.round (n : ℚ) = F64.fin (n : ℚ) := by
  have h := round_of_dyadic n 0 hn (by norm_num) (by norm_num)
  simpa using h

/-- A natural number of at most 53 binary digits is a double. -/
theorem round_natCast (n : Nat) (hn : n < 2 ^ 53) : F64.round (n : ℚ) = F64.fin (n : ℚ) := by
  have h := round_intCast (n : Int) (by rw [abs_of_nonneg (by omega)]; exact_mod_cast hn)
  simpa using h

/-- The grid value of a positive number, from its binade. -/
theorem roundToGrid_eq (x : ℚ) (E : Int) (hx : 0 < x) (hE : -1022 ≤ E) (hlow : 2 ^ E ≤ x)
    (hhigh : x < 2 ^ (E + 1)) :
    roundToGrid x = (roundHalfEven (x / 2 ^ (E - 52)) : ℚ) * 2 ^ (E - 52) := by
  unfold roundToGrid quantum
  rw [binade_eq x E hx hE hlow hhigh]

/-- A positive number in the binade `E ≤ 1022` rounds to a finite float. -/
theorem round_eq_of_binade (x : ℚ) (E : Int) (hx : 0 < x) (hE : -1022 ≤ E) (hE2 : E ≤ 1022)
    (hlow : 2 ^ E ≤ x) (hhigh : x < 2 ^ (E + 1)) :
    F64.round x = F64.fin ((roundHalfEven (x / 2 ^ (E - 52)) : ℚ) * 2 ^ (E - 52)) := by
  have hb := binade_eq x E hx hE hlow hhigh
  have htop := roundToGrid_le_top x hx
  rw [hb] at htop
  have h0 := roundToGrid_nonneg x (le_of_lt hx)
  have h1 : (2 : ℚ) ^ (E + 1) ≤ 2 ^ (1023 : ℤ) := zpow_le_zpow_right₀ (by norm_num) (by omega)
  have h2 : (2 : ℚ) ^ (1023 : ℤ) < (2 : ℚ) ^ 1024 := by
    have : (2 : ℚ) ^ 1024 = 2 ^ (1024 : ℤ) := by norm_num
    rw [this]
    exact zpow_lt_zpow_right₀ (by norm_num) (by norm_num)
  have h3 : (0 : ℚ) < (2 : ℚ) ^ 1024 := by positivity
  rw [round_eq_fin x (by linarith) (by linarith), roundToGrid_eq x E hx hE hlow hhigh]

/-- Rounding of a positive number that lies less than half a spacing from the `r`-th
multiple of the spacing of its binade. -/
theorem round_eq_of_near (x : ℚ) (E r : Int) (hx : 0 < x) (hE : -1022 ≤ E) (hE2 : E ≤ 1022)
    (hlow : 2 ^ E ≤ x) (hhigh : x < 2 ^ (E + 1))
    (h1 : ((r : ℚ) - 1 / 2) * 2 ^ (E - 52) < x)
    (h2 : x < ((r : ℚ) + 1 / 2) * 2 ^ (E - 52)) :
    F64.round x = F64.fin ((r : ℚ) * 2 ^ (E - 52)) := by
  have hq : (0 : ℚ) < 2 ^ (E - 52) := by positivity
  have hr : roundHalfEven (x / 2 ^ (E - 52)) = r :=
    roundHalfEven_eq_of_near _ r ((lt_div_iff₀ hq).mpr h1) ((div_lt_iff₀ hq).mpr h2)
  rw [round_eq_of_binade x E hx hE hE2 hlow hhigh, hr]

/-- Rounding of a positive number half a spacing below the `r`-th multiple of the spacing
of its binade, `r` even. -/
theorem round_eq_of_tie_below (x : ℚ) (E r : Int) (hx : 0 < x) (hE : -1022 ≤ E)
    (hE2 : E ≤ 1022) (hlow : 2 ^ E ≤ x) (hhigh : x < 2 ^ (E + 1))
    (htie : x = ((r : ℚ) - 1 / 2) * 2 ^ (E - 52)) (heven : r % 2 = 0) :
    F64.round x = F64.fin ((r : ℚ) * 2 ^ (E - 52)) := by
  have hq : (0 : ℚ) < 2 ^ (E - 52) := by positivity
  have hz : x / 2 ^ (E - 52) = (r : ℚ) - 1 / 2 := by
    rw [htie]
    exact mul_div_cancel_right₀ _ (ne_of_gt hq)
  have hr : roundHalfEven (x / 2 ^ (E - 52)) = r := roundHalfEven_eq_of_tie_below _ r hz heven
  rw [round_eq_of_binade x E hx hE hE2 hlow hhigh, hr]

/-- Rounding of a positive number half a spacing above the `r`-th multiple of the spacing
of its binade, `r` even. -/
theorem round_eq_of_tie_above (x : ℚ) (E r : Int) (hx : 0 < x) (hE : -1022 ≤ E)
    (hE2 : E ≤ 1022) (hlow : 2 ^ E ≤ x) (hhigh : x < 2 ^ (E + 1))
    (htie : x = ((r : ℚ) + 1 / 2) * 2 ^ (E - 52)) (heven : r % 2 = 0) :
    F64.round x = F64.fin ((r : ℚ) * 2 ^ (E - 52)) := by
  have hq : (0 : ℚ) < 2 ^ (E - 52) := by positivity
  have hz : x / 2 ^ (E - 52) = (r : ℚ) + 1 / 2 := by
    rw [htie]
    exact mul_div_cancel_right₀ _ (ne_of_gt hq)
  have hr : roundHalfEven (x / 2 ^ (E - 52)) = r := roundHalfEven_eq_of_tie_above _ r hz heven
  rw [round_eq_of_binade x E hx hE hE2 hlow hhigh, hr]

/-- A positive number below `2^K` rounds to a finite float that is at most `2^K`. -/
theorem round_le_pow (x : ℚ) (K : Int) (hx : 0 ≤ x) (hK1 : -1021 ≤ K) (hK2 : K ≤ 1023)
    (hlt : x < 2 ^ K) : ∃ a, F64.round x = F64.fin a ∧ 0 ≤ a ∧ a ≤ 2 ^ K := by
  have h0 := roundToGrid_nonneg x hx
  have htop : roundToGrid x ≤ 2 ^ K := by
    rcases eq_or_lt_of_le hx with hz | hpos
    · rw [← hz, roundToGrid_zero]
      positivity
    · have hlog : Int.log 2 |x| < K := by
        rw [← Int.lt_zpow_iff_log_lt (by norm_num) (abs_pos.mpr (ne_of_gt hpos)), two_cast,
          abs_of_pos hpos]
        exact hlt
      have hE : binade x + 1 ≤ K := by
        unfold binade
        have : max (Int.log 2 |x|) (-1022) ≤ K - 1 := max_le (by omega) (by omega)
        omega
      exact le_trans (roundToGrid_le_top x hpos) (zpow_le_zpow_right₀ (by norm_num) hE)
  have h1 : (2 : ℚ) ^ K ≤ 2 ^ (1023 : ℤ) := zpow_le_zpow_right₀ (by norm_num) hK2
  have h2 : (2 : ℚ) ^ (1023 : ℤ) < (2 : ℚ) ^ 1024 := by
    have : (2 : ℚ) ^ 1024 = 2 ^ (1024 : ℤ) := by norm_num
    rw [this]
    exact zpow_lt_zpow_right₀ (by norm_num) (by norm_num)
  have h3 : (0 : ℚ) < (2 : ℚ) ^ 1024 := by positivity
  exact ⟨roundToGrid x, round_eq_fin x (by linarith) (by linarith), h0, htop⟩

/-! ## Facts about the order of floats -/

/-- A float that is not NaN is at most itself. -/
theorem F64.le_refl (a : F64) (ha : a ≠ F64.nan) : F64.le a a = true := by
  cases a <;> simp [F64.le, F64.lt, F64.eq] at ha ⊢

/-- The order of floats is transitive. -/
theorem F64.le_trans (a b c : F64) (hab : F64.le a b = true) (hbc : F64.le b c = true) :
    F64.le a c = true := by
  cases a <;> cases b <;> cases c <;>
    simp [F64.le, F64.lt, F64.eq] at hab hbc ⊢
  rename_i x y z
  rcases hab with h1 | h1 <;> rcases hbc with h2 | h2
  · exact Or.inl (lt_trans h1 h2)
  · exact Or.inl (h2 ▸ h1)
  · exact Or.inl (h1 ▸ h2)
  · exact Or.inr (h1.trans h2)

/-- Of two floats that are not NaN, one that is not less is at least the other. -/
theorem F64.le_of_not_lt (a b : F64) (ha : a ≠ F64.nan) (hb : b ≠ F64.nan)
    (h : F64.lt a b = false) : F64.le b a = true := by
  cases a <;> cases b <;>
    simp [F64.le, F64.lt, F64.eq] at ha hb h ⊢
  rename_i x y
  exact lt_or_eq_of_le h

/-- A float less than another is at most it. -/
theorem F64.le_of_lt (a b : F64) (h : F64.lt a b = true) : F64.le a b = true := by
  simp [F64.le, h]

/-- Nothing is less than NaN and NaN is less than nothing. -/
theorem F64.lt_nan (a : F64) : F64.lt a F64.nan = false ∧ F64.lt F64.nan a = false := by
  cases a <;> simp [F64.lt]

/-- Only negative infinity is at most negative infinity. -/
theorem F64.le_negInf (a : F64) (h : F64.le a F64.negInf = true) : a = F64.negInf := by
  cases a <;> simp [F64.le, F64.lt, F64.eq] at h ⊢

/-- Negative infinity is at most every float that is not NaN. -/
theorem F64.negInf_le (a : F64) (ha : a ≠ F64.nan) : F64.le F64.negInf a = true := by
  cases a <;> simp [F64.le, F64.lt, F64.eq] at ha ⊢

/-- The order of finite floats is the order of their values. -/
theorem F64.le_fin (a b : ℚ) : F64.le (F64.fin a) (F64.fin b) = true ↔ a ≤ b := by
  simp [F64.le, F64.lt, F64.eq, le_iff_lt_or_eq]

/-- The order of the sort is total. -/
theorem sortLess_total (a b : F64) : sortLess b a = false ∨ sortLess a b = false := by
  cases a <;> cases b <;> simp [sortLess, F64.lt, F64.isNaN]
  exact le_total _ _

/-- The order of the sort is transitive. -/
theorem sortLess_trans (a b c : F64) :
    sortLess b a = false → sortLess c b = false → sortLess c a = false := by
  cases a <;> cases b <;> cases c <;> simp [sortLess, F64.lt, F64.isNaN]
  exact fun h1 h2 => le_trans h1 h2

/-- Two floats of which none comes before the other in the order of the sort are one. -/
theorem sortLess_antisymm (a b : F64) :
    sortLess b a = false → sortLess a b = false → a = b := by
  cases a <;> cases b <;> simp [sortLess, F64.lt, F64.isNaN]
  exact fun h1 h2 => le_antisymm h1 h2

/-- Among floats that are not NaN, the order of the sort is the order of floats. -/
theorem sortLess_false_iff (a b : F64) (ha : a ≠ F64.nan) (hb : b ≠ F64.nan) :
    sortLess b a = false ↔ F64.le a b = true := by
  cases a <;> cases b <;>
    simp [sortLess, F64.lt, F64.isNaN, F64.le, F64.eq, le_iff_lt_or_eq] at ha hb ⊢

/-- A quotient by a finite float is finite only if the dividend is. -/
theorem F64.div_eq_fin_left (a : F64) (d b : ℚ) (h : F64.div a (F64.fin d) = F64.fin b) :
    ∃ c, a = F64.fin c := by
  cases a with
  | fin c => exact ⟨c, rfl⟩
  | posInf => simp only [F64.div, F64.signed] at h; split_ifs at h
  | negInf => simp only [F64.div, F64.signed] at h; split_ifs at h
  | nan => simp [F64.div] at h

/-- A product by a finite float is finite only if the other factor is. -/
theorem F64.mul_eq_fin_left (a : F64) (q b : ℚ) (h : F64.mul a (F64.fin q) = F64.fin b) :
    ∃ c, a = F64.fin c := by
  cases a with
  | fin c => exact ⟨c, rfl⟩
  | posInf => simp only [F64.mul, F64.signed] at h; split_ifs at h
  | negInf => simp only [F64.mul, F64.signed] at h; split_ifs at h
  | nan => simp [F64.mul] at h

/-! ## Evaluation of float operations -/

/-- The conversion of an integer of at most 53 binary digits is exact. -/
theorem F64.ofInt_small (n : Int) (hn : |n| < 2 ^ 53) : F64.ofInt n = F64.fin (n : ℚ) :=
  round_intCast n hn

/-- A sum that is an integer of at most 53 binary digits is exact. -/
theorem F64.add_of_int (a b : ℚ) (n : Int) (h : a + b = (n : ℚ)) (hn : |n| < 2 ^ 53) :
    F64.add (F64.fin a) (F64.fin b) = F64.fin (n : ℚ) := by
  show F64.round (a + b) = F64.fin (n : ℚ)
  rw [h]
  exact round_intCast n hn

/-- A quotient that is a binary fraction of at most 53 digits is exact. -/
theorem F64.div_of_dyadic (a b : ℚ) (m k : Int) (hb : b ≠ 0) (h : a / b = (m : ℚ) * 2 ^ k)
    (hm : |m| < 2 ^ 53) (hk : -1074 ≤ k) (hk2 : k ≤ 970) :
    F64.div (F64.fin a) (F64.fin b) = F64.fin ((m : ℚ) * 2 ^ k) := by
  show (if b = 0 then _ else F64.round (a / b)) = _
  rw [if_neg hb, h]
  exact round_of_dyadic m k hm hk hk2

/-- The seconds of a duration of whole seconds, fewer than `2^53`. -/
theorem Seconds_of_whole (s : Int) (hs : |s| < 2 ^ 53) :
    Duration.Seconds (s * 1000000000) = F64.fin (s : ℚ) := by
  unfold Duration.Seconds
  have h1 : (s * 1000000000).tdiv 1000000000 = s := Int.mul_tdiv_cancel s (by norm_num)
  have h2 : (s * 1000000000).tmod 1000000000 = 0 := Int.mul_tmod_left s 1000000000
  rw [h1, h2, F64.ofInt_small s hs, F64.ofInt_small 0 (by norm_num)]
  have hdiv : F64.div (F64.fin ((0 : Int) : ℚ)) (F64.fin 1000000000) = F64.fin ((0 : Int) : ℚ) := by
    have := F64.div_of_dyadic ((0 : Int) : ℚ) 1000000000 0 0 (by norm_num) (by norm_num)
      (by norm_num) (by norm_num) (by norm_num)
    simpa using this
  rw [hdiv]
  have := F64.add_of_int (s : ℚ) ((0 : Int) : ℚ) s (by simp) hs
  exact this

/-- The sum of two finite floats is the rounded sum. -/
theorem F64.add_fin (a b : ℚ) : F64.add (F64.fin a) (F64.fin b) = F64.round (a + b) := rfl

/-- The product of two finite floats is the rounded product. -/
theorem F64.mul_fin (a b : ℚ) : F64.mul (F64.fin a) (F64.fin b) = F64.round (a * b) := rfl

/-- The quotient of two finite floats, the divisor not zero, is the rounded quotient. -/
theorem F64.div_fin (a b : ℚ) (hb : b ≠ 0) :
    F64.div (F64.fin a) (F64.fin b) = F64.round (a / b) := by
  show (if b = 0 then _ else F64.round (a / b)) = _
  rw [if_neg hb]
/-! ## Facts about the aggregation loops -/

/-- The guard of the window, for a duration whose negation does not wrap. -/
theorem inWindow_iff (now : Time) (duration : Duration) (dp : DataPoint)
    (hd : duration.Negatable) :
    inWindow now duration dp = decide (now - duration < dp.Timestamp) := by
  unfold inWindow
  rw [negInt64_eq duration hd.1 hd.2]
  rfl

/-- The window of the code is the window of the specification, for a duration whose
negation does not wrap. -/
theorem windowValues_eq_strictWindow (now : Time) (duration : Duration) (series : MetricSeries)
    (hd : duration.Negatable) :
    windowValues now duration series = strictWindow now duration series := by
  unfold windowValues strictWindow
  congr 1
  apply List.filter_congr
  intro dp _
  exact inWindow_iff now duration dp hd

/-- A guarded loop over the samples of a series is a loop over its window values. -/
theorem foldl_window {β : Type} (now : Time) (duration : Duration) (g : β → F64 → β)
    (dps : List DataPoint) (acc : β) :
    dps.foldl (fun acc dp => if inWindow now duration dp then g acc dp.Value else acc) acc
      = ((dps.filter (inWindow now duration)).map (·.Value)).foldl g acc := by
  induction dps generalizing acc with
  | nil => rfl
  | cons dp rest ih =>
    simp only [List.foldl_cons, List.filter_cons]
    by_cases h : inWindow now duration dp = true
    · simp only [h, if_true, List.map_cons, List.foldl_cons]
      exact ih _
    · simp only [h, if_false, Bool.false_eq_true]
      exact ih _

/-- The collecting loop appends the values to its accumulator. -/
theorem foldl_append_singleton (values acc : List F64) :
    values.foldl (fun (values : List F64) v => values ++ [v]) acc = acc ++ values := by
  induction values generalizing acc with
  | nil => simp
  | cons v rest ih => simp [ih]

/-- The counting loop adds the number of values to its accumulator. -/
theorem foldl_count_eq_length (values : List F64) (acc : Nat) :
    values.foldl (fun count _ => count + 1) acc = acc + values.length := by
  induction values generalizing acc with
  | nil => simp
  | cons v rest ih => simp only [List.foldl_cons, ih, List.length_cons]; omega

/-- The loop of `Average` keeps the running sum of `Sum` and the running count. -/
theorem foldl_sum_count (values : List F64) (acc : F64 × Nat) :
    values.foldl (fun (acc : F64 × Nat) v => (F64.add acc.1 v, acc.2 + 1)) acc
      = (values.foldl F64.add acc.1, acc.2 + values.length) := by
  induction values generalizing acc with
  | nil => simp
  | cons v rest ih =>
    simp only [List.foldl_cons, ih, List.length_cons]
    ext
    · rfl
    · simp only; omega

/-- `Sum` of a series that exists: the running float sum of its window values. -/
theorem Sum_of_series (mc : MetricCollector) (now : Time) (name : String) (labels : Labels)
    (duration : Duration) (series : MetricSeries)
    (hget : GetMetrics mc name labels = some series) :
    Sum mc now name labels duration =
      (windowValues now duration series).foldl F64.add (F64.fin 0) := by
  have h := foldl_window now duration F64.add series.Values (F64.fin 0)
  simp only [Sum, hget, windowValues]
  exact h

/-- `Average` of a series that exists, through the running sum and the count of its
window values. -/
theorem Average_of_series (mc : MetricCollector) (now : Time) (name : String) (labels : Labels)
    (duration : Duration) (series : MetricSeries)
    (hget : GetMetrics mc name labels = some series) :
    Average mc now name labels duration =
      if (windowValues now duration series).length = 0 then F64.fin 0
      else F64.div ((windowValues now duration series).foldl F64.add (F64.fin 0))
        (F64.ofInt (windowValues now duration series).length) := by
  have h := foldl_window now duration
    (fun (acc : F64 × Nat) v => (F64.add acc.1 v, acc.2 + 1)) series.Values (F64.fin 0, 0)
  simp only [Average, hget, windowValues]
  rw [h, foldl_sum_count]
  simp

/-- `Rate` of a series that exists: the count of its window values over the seconds of the
window, as a float division. -/
theorem Rate_of_series (mc : MetricCollector) (now : Time) (name : String) (labels : Labels)
    (duration : Duration) (series : MetricSeries)
    (hget : GetMetrics mc name labels = some series) :
    Rate mc now name labels duration =
      F64.div (F64.ofInt (windowValues now duration series).length)
        (Duration.Seconds duration) := by
  have h := foldl_window now duration (fun (count : Nat) _ => count + 1) series.Values 0
  simp only [Rate, hget, windowValues]
  rw [h, foldl_count_eq_length, zero_add]

/-- `Max` of a series that exists, through the running maximum over its window values. -/
theorem Max_of_series (mc : MetricCollector) (now : Time) (name : String) (labels : Labels)
    (duration : Duration) (series : MetricSeries)
    (hget : GetMetrics mc name labels = some series) :
    Max mc now name labels duration =
      if runningMax (windowValues now duration series) F64.negInf = F64.negInf then F64.fin 0
      else runningMax (windowValues now duration series) F64.negInf := by
  have h := foldl_window now duration
    (fun (max : F64) v => if F64.gt v max then v else max) series.Values F64.negInf
  simp only [Max, hget, windowValues, runningMax]
  rw [h]

/-- The running maximum from a start that is not NaN: it is not NaN, it is the start or
one of the values, and it is at least the start and every value that is not NaN. -/
theorem runningMax_spec (values : List F64) (start : F64) (hstart : start ≠ F64.nan) :
    runningMax values start ≠ F64.nan ∧
      (runningMax values start = start ∨ runningMax values start ∈ values) ∧
      F64.le start (runningMax values start) = true ∧
      ∀ v ∈ values, v ≠ F64.nan → F64.le v (runningMax values start) = true := by
  induction values generalizing start with
  | nil =>
    exact ⟨hstart, Or.inl rfl, F64.le_refl start hstart, by simp⟩
  | cons v rest ih =>
    have hstep : runningMax (v :: rest) start =
        runningMax rest (if F64.gt v start then v else start) := rfl
    rw [hstep]
    by_cases hgt : F64.gt v start = true
    · have hv : v ≠ F64.nan := by
        intro hnan
        rw [hnan] at hgt
        unfold F64.gt at hgt
        rw [(F64.lt_nan start).1] at hgt
        exact Bool.false_ne_true hgt
      rw [if_pos hgt]
      obtain ⟨h1, h2, h3, h4⟩ := ih v hv
      refine ⟨h1, ?_, ?_, ?_⟩
      · rcases h2 with h2 | h2
        · exact Or.inr (by rw [h2]; exact List.mem_cons_self _ _)
        · exact Or.inr (List.mem_cons_of_mem _ h2)
      · exact F64.le_trans _ _ _ (F64.le_of_lt _ _ hgt) h3
      · intro w hw hwn
        rcases List.mem_cons.mp hw with hw | hw
        · exact hw ▸ h3
        · exact h4 w hw hwn
    · rw [if_neg hgt]
      obtain ⟨h1, h2, h3, h4⟩ := ih start hstart
      refine ⟨h1, ?_, h3, ?_⟩
      · rcases h2 with h2 | h2
        · exact Or.inl h2
        · exact Or.inr (List.mem_cons_of_mem _ h2)
      · intro w hw hwn
        rcases List.mem_cons.mp hw with hw | hw
        · subst hw
          have hle : F64.le w start = true :=
            F64.le_of_not_lt start w hstart hwn (by simpa [F64.gt] using hgt)
          exact F64.le_trans _ _ _ hle h3
        · exact h4 w hw hwn

/-- The running maximum from negative infinity over values of which one is neither NaN
nor negative infinity: one of the values, not NaN, not negative infinity, at least every
value that is not NaN. -/
theorem runningMax_of_proper (values : List F64)
    (h : ∃ v ∈ values, v ≠ F64.nan ∧ v ≠ F64.negInf) :
    runningMax values F64.negInf ∈ values ∧
      runningMax values F64.negInf ≠ F64.nan ∧
      runningMax values F64.negInf ≠ F64.negInf ∧
      ∀ v ∈ values, v ≠ F64.nan → F64.le v (runningMax values F64.negInf) = true := by
  obtain ⟨h1, h2, _, h4⟩ := runningMax_spec values F64.negInf (by simp)
  obtain ⟨v, hv, hvn, hvi⟩ := h
  have hne : runningMax values F64.negInf ≠ F64.negInf := by
    intro heq
    have := h4 v hv hvn
    rw [heq] at this
    exact hvi (F64.le_negInf v this)
  refine ⟨?_, h1, hne, h4⟩
  rcases h2 with h2 | h2
  · exact absurd h2 hne
  · exact h2

/-- The running maximum from negative infinity over values that are all NaN or negative
infinity stays at negative infinity. -/
theorem runningMax_of_improper (values : List F64)
    (h : ∀ v ∈ values, v = F64.nan ∨ v = F64.negInf) :
    runningMax values F64.negInf = F64.negInf := by
  obtain ⟨h1, h2, _, _⟩ := runningMax_spec values F64.negInf (by simp)
  rcases h2 with h2 | h2
  · exact h2
  · rcases h _ h2 with h3 | h3
    · exact absurd h3 h1
    · exact h3

/-- Indexing with a machine integer that is a natural number never panics by sign. -/
theorem indexAt_natCast (values : List F64) (k : Nat) :
    indexAt values (k : Int) = values.get? k := by
  unfold indexAt
  rw [if_neg (by omega), Int.toNat_ofNat]

/-- What `sortFloat64s` returns is in the order of the sort. -/
theorem sortFloat64s_sorted (values : List F64) :
    (sortFloat64s values).Sorted (fun x y => sortLess y x = false) := by
  haveI : IsTotal F64 (fun x y => sortLess y x = false) := ⟨sortLess_total⟩
  haveI : IsTrans F64 (fun x y => sortLess y x = false) := ⟨sortLess_trans⟩
  unfold sortFloat64s
  exact List.sorted_insertionSort _ values

/-- What `sortFloat64s` returns is a rearrangement of the values it was given. -/
theorem sortFloat64s_perm (values : List F64) : (sortFloat64s values).Perm values := by
  unfold sortFloat64s
  exact List.perm_insertionSort _ values

/-- What `sortFloat64s` returns holds the values it was given. -/
theorem mem_sortFloat64s (values : List F64) (v : F64) :
    v ∈ sortFloat64s values ↔ v ∈ values :=
  (sortFloat64s_perm values).mem_iff

/-- What `sortFloat64s` returns is as long as what it was given. -/
theorem sortFloat64s_length (values : List F64) :
    (sortFloat64s values).length = values.length := (sortFloat64s_perm values).length_eq

/-- The only arrangement of a list of values in the order of the sort is the one
`sortFloat64s` returns. -/
theorem sortFloat64s_eq_of_perm_sorted (values sorted : List F64)
    (hperm : sorted.Perm values)
    (hsorted : sorted.Sorted (fun x y => sortLess y x = false)) :
    sortFloat64s values = sorted := by
  haveI : IsAntisymm F64 (fun x y => sortLess y x = false) := ⟨sortLess_antisymm⟩
  exact List.eq_of_perm_of_sorted ((sortFloat64s_perm values).trans hperm.symm)
    (sortFloat64s_sorted values) hsorted

/-- The running float sum of integer values is their exact sum when the magnitudes of the
start and the values total less than `2^53`: no addition rounds. -/
theorem foldl_add_of_ints (ns : List Int) (acc : Int)
    (h : acc.natAbs + (ns.map Int.natAbs).sum < 2 ^ 53) :
    (ns.map (fun (n : Int) => F64.fin (n : ℚ))).foldl F64.add (F64.fin (acc : ℚ))
      = F64.fin ((acc + ns.sum : Int) : ℚ) := by
  induction ns generalizing acc with
  | nil => simp
  | cons n rest ih =>
    simp only [List.map_cons, List.sum_cons, List.foldl_cons] at h ⊢
    have hn : |acc + n| < 2 ^ 53 := by
      rw [Int.abs_eq_natAbs]
      have := Int.natAbs_add_le acc n
      omega
    rw [F64.add_of_int (acc : ℚ) (n : ℚ) (acc + n) (by push_cast; rfl) hn]
    have hrest : (acc + n).natAbs + (rest.map Int.natAbs).sum < 2 ^ 53 := by
      have := Int.natAbs_add_le acc n
      omega
    rw [ih (acc + n) hrest, add_assoc]

/-! ## The arithmetic at three inputs -/

/-- The doubles nearest to 0.1 and 0.2 add up to `0.30000000000000004`. -/
theorem add_tenth_fifth :
    F64.add (F64.fin (3602879701896397 / 36028797018963968))
        (F64.fin (3602879701896397 / 18014398509481984))
      = F64.fin (5404319552844596 / 18014398509481984) := by
  have := round_eq_of_tie_below
    (3602879701896397 / 36028797018963968 + 3602879701896397 / 18014398509481984) (-2)
    5404319552844596 (by norm_num) (by norm_num) (by norm_num) (by norm_num) (by norm_num)
    (by norm_num) (by norm_num)
  rw [F64.add_fin]
  norm_num at this ⊢
  exact this

/-- The double nearest to `10^308`, added to itself, overflows to positive infinity. -/
theorem add_overflows :
    F64.add (F64.fin (5010420900022432 * 2 ^ 971)) (F64.fin (5010420900022432 * 2 ^ 971))
      = F64.posInf := by
  have hsum : (5010420900022432 * 2 ^ 971 + 5010420900022432 * 2 ^ 971 : ℚ)
      = ((5010420900022432 : Int) : ℚ) * 2 ^ (972 : Int) := by
    norm_num
  have hgrid := roundToGrid_of_dyadic 5010420900022432 972 (by norm_num) (by norm_num)
  rw [F64.add_fin, hsum]
  unfold F64.round
  rw [hgrid, if_pos (by norm_num)]

/-- Over the least `int64` as duration the negation wraps and the cutoff lies in the past:
`Sum` counts a sample that is not stamped after `now - duration`. -/
theorem Sum_of_least_duration :
    strictWindow 100 minInt64 oneSampleSeries = [] ∧
      Sum oneSample 100 "m" [] minInt64 = F64.fin 40 := by
  have hget : GetMetrics oneSample "m" [] = some oneSampleSeries := by decide
  have hw : windowValues 100 minInt64 oneSampleSeries = [F64.fin 40] := by decide
  have h40 : F64.add (F64.fin 0) (F64.fin 40) = F64.fin 40 := by
    have := F64.add_of_int 0 40 40 (by norm_num) (by norm_num)
    simpa using this
  refine ⟨by decide, ?_⟩
  rw [Sum_of_series _ _ _ _ _ _ hget, hw, List.foldl_cons, List.foldl_nil, h40]

/-! ## Facts about the percentile -/

/-- The conversion to an integer of a float that is not negative and below `2^63`: its
integer part. -/
theorem toInt64_of_nonneg (x : ℚ) (h0 : 0 ≤ x) (hlt : x < 9223372036854775808) :
    toInt64 (F64.fin x) = ⌊x⌋ := by
  have hfl0 : 0 ≤ ⌊x⌋ := Int.floor_nonneg.mpr h0
  have hfl1 : ⌊x⌋ < 9223372036854775808 := by
    rw [Int.floor_lt]
    exact_mod_cast hlt
  have ht : truncToInt x = ⌊x⌋ := if_pos h0
  show (if minInt64 ≤ truncToInt x ∧ truncToInt x < -minInt64 then truncToInt x
    else minInt64) = ⌊x⌋
  rw [ht, if_pos ⟨by unfold minInt64; omega, by unfold minInt64; omega⟩]

/-- The collecting loop of `Percentile` gathers the window values. -/
theorem collect_eq_windowValues (now : Time) (duration : Duration) (series : MetricSeries) :
    series.Values.foldl (fun (values : List F64) dp =>
        if inWindow now duration dp then values ++ [dp.Value] else values) []
      = windowValues now duration series := by
  have h := foldl_window now duration (fun (values : List F64) v => values ++ [v])
    series.Values []
  rw [h, foldl_append_singleton]
  rfl

/-- `Percentile` of a series that exists and has no value in the window. -/
theorem Percentile_of_empty_window (mc : MetricCollector) (now : Time) (name : String)
    (labels : Labels) (duration : Duration) (p : F64) (series : MetricSeries)
    (hget : GetMetrics mc name labels = some series)
    (hempty : windowValues now duration series = []) :
    Percentile mc now name labels duration p = some (F64.fin 0) := by
  simp only [Percentile, hget, collect_eq_windowValues, hempty]
  rfl

/-- `Percentile` of a series with a value in the window, for a rank whose float index
is not negative and below `2^63`: the sorted window values at the integer part of the
float index, clamped to the last position. -/
theorem Percentile_of_series (mc : MetricCollector) (now : Time) (name : String)
    (labels : Labels) (duration : Duration) (p : F64) (series : MetricSeries) (x : ℚ)
    (hget : GetMetrics mc name labels = some series)
    (hne : windowValues now duration series ≠ [])
    (hidx : rankIndex (windowValues now duration series).length p = F64.fin x)
    (h0 : 0 ≤ x) (hlt : x < 9223372036854775808) :
    Percentile mc now name labels duration p =
      (sortFloat64s (windowValues now duration series)).get?
        (min ⌊x⌋.toNat ((windowValues now duration series).length - 1)) := by
  have hpos : 0 < (windowValues now duration series).length := List.length_pos.mpr hne
  have hfl0 : 0 ≤ ⌊x⌋ := Int.floor_nonneg.mpr h0
  have hclamp : (if ⌊x⌋ ≥ ((windowValues now duration series).length : Int)
        then ((windowValues now duration series).length : Int) - 1 else ⌊x⌋)
      = ((min ⌊x⌋.toNat ((windowValues now duration series).length - 1) : Nat) : Int) := by
    split_ifs with h <;> omega
  simp only [Percentile, hget, collect_eq_windowValues]
  rw [if_neg (by omega), sortFloat64s_length, hidx, toInt64_of_nonneg x h0 hlt, hclamp,
    indexAt_natCast]

/-- The float index grows with the rank: below a rank whose float index is finite, the
float index of a rank that is not negative is finite, not negative and no larger. -/
theorem rankIndex_mono (n : Nat) (p q b : ℚ) (hp : 0 ≤ p) (hpq : p ≤ q)
    (hq : rankIndex n (F64.fin q) = F64.fin b) :
    ∃ a, rankIndex n (F64.fin p) = F64.fin a ∧ 0 ≤ a ∧ a ≤ b := by
  unfold rankIndex F64.ofInt at hq ⊢
  have hn : (0 : ℚ) ≤ ((n : Int) : ℚ) := by exact_mod_cast Nat.zero_le n
  rcases round_of_nonneg ((n : Int) : ℚ) hn with hinf | ⟨hfin, hn0⟩
  · exfalso
    obtain ⟨c, hc⟩ := F64.div_eq_fin_left _ _ _ hq
    obtain ⟨d, hd⟩ := F64.mul_eq_fin_left _ _ _ hc
    rw [hinf] at hd
    exact absurd hd (by simp)
  · rw [hfin] at hq ⊢
    simp only [F64.mul] at hq ⊢
    have hmul : roundToGrid ((n : Int) : ℚ) * p ≤ roundToGrid ((n : Int) : ℚ) * q :=
      mul_le_mul_of_nonneg_left hpq hn0
    have hmul0 : 0 ≤ roundToGrid ((n : Int) : ℚ) * p := mul_nonneg hn0 hp
    rcases round_of_nonneg (roundToGrid ((n : Int) : ℚ) * q) (le_trans hmul0 hmul) with
      hinf2 | ⟨hfin2, hc0⟩
    · exfalso
      rw [hinf2] at hq
      obtain ⟨c, hc⟩ := F64.div_eq_fin_left _ _ _ hq
      exact absurd hc (by simp)
    · obtain ⟨c, hc, hc1, hc2⟩ := round_mono _ _ _ hmul0 hmul hfin2
      rw [hfin2] at hq
      rw [hc]
      have h100 : (100 : ℚ) ≠ 0 := by norm_num
      simp only [F64.div, h100, if_false] at hq ⊢
      have hdiv : c / 100 ≤ roundToGrid (roundToGrid ((n : Int) : ℚ) * q) / 100 :=
        div_le_div_of_nonneg_right hc2 (by norm_num)
      have hdiv0 : 0 ≤ c / 100 := div_nonneg hc1 (by norm_num)
      exact round_mono _ _ _ hdiv0 hdiv hq

/-- The float index of a rank between 0 and 100, on fewer than `2^53` values: finite, not
negative and below `2^63`. -/
theorem rankIndex_in_range (n : Nat) (p : ℚ) (hn : n < 2 ^ 53) (hp : 0 ≤ p) (hp2 : p ≤ 100) :
    ∃ x, rankIndex n (F64.fin p) = F64.fin x ∧ 0 ≤ x ∧ x < 9223372036854775808 := by
  have hnq : (0 : ℚ) ≤ (n : ℚ) := Nat.cast_nonneg n
  have hnlt : (n : ℚ) < 9007199254740992 := by exact_mod_cast hn
  have hof : F64.ofInt (n : Int) = F64.fin (n : ℚ) := by
    unfold F64.ofInt
    have := round_natCast n hn
    simpa using this
  have h1 : (n : ℚ) * p < 2 ^ (60 : ℤ) := by
    have : (n : ℚ) * p ≤ (n : ℚ) * 100 := mul_le_mul_of_nonneg_left hp2 hnq
    norm_num
    linarith
  obtain ⟨c, hc, hc0, hc1⟩ := round_le_pow ((n : ℚ) * p) 60 (mul_nonneg hnq hp) (by norm_num)
    (by norm_num) h1
  have h2 : c / 100 < 2 ^ (54 : ℤ) := by
    norm_num at hc1 ⊢
    linarith
  obtain ⟨x, hx, hx0, hx1⟩ := round_le_pow (c / 100) 54 (div_nonneg hc0 (by norm_num))
    (by norm_num) (by norm_num) h2
  refine ⟨x, ?_, hx0, ?_⟩
  · unfold rankIndex
    rw [hof]
    simp only [F64.mul, hc]
    have h100 : (100 : ℚ) ≠ 0 := by norm_num
    simp only [F64.div, h100, if_false]
    exact hx
  · norm_num at hx1
    linarith

/-! ## The aggregations without data -/

/-- The five aggregations of a series that does not exist are 0. -/
theorem aggregations_of_missing (mc : MetricCollector) (now : Time) (name : String)
    (labels : Labels) (duration : Duration)
    (hget : GetMetrics mc name labels = none) :
    Sum mc now name labels duration = F64.fin 0 ∧
      Average mc now name labels duration = F64.fin 0 ∧
      Max mc now name labels duration = F64.fin 0 ∧
      Rate mc now name labels duration = F64.fin 0 ∧
      ∀ p, Percentile mc now name labels duration p = some (F64.fin 0) := by
  simp [Sum, Average, Max, Rate, Percentile, hget]

/-- The seconds of the empty duration are zero. -/
theorem Seconds_zero : Duration.Seconds 0 = F64.fin 0 := by
  have := Seconds_of_whole 0 (by norm_num)
  simpa using this

/-- The aggregations of a series with no sample in the window: 0, except that `Rate`
divides zero by the seconds of the window, which over a window of length zero is zero by
zero. -/
theorem aggregations_of_empty_window (mc : MetricCollector) (now : Time) (name : String)
    (labels : Labels) (duration : Duration) (series : MetricSeries)
    (hget : GetMetrics mc name labels = some series)
    (hempty : windowValues now duration series = []) :
    Sum mc now name labels duration = F64.fin 0 ∧
      Average mc now name labels duration = F64.fin 0 ∧
      Max mc now name labels duration = F64.fin 0 ∧
      (∀ p, Percentile mc now name labels duration p = some (F64.fin 0)) ∧
      Rate mc now name labels duration = F64.div (F64.fin 0) (Duration.Seconds duration) ∧
      (duration = 0 → Rate mc now name labels duration = F64.nan) ∧
      (∀ s : Int, s ≠ 0 → |s| < 2 ^ 53 → duration = s * 1000000000 →
        Rate mc now name labels duration = F64.fin 0) := by
  have hrate : Rate mc now name labels duration =
      F64.div (F64.fin 0) (Duration.Seconds duration) := by
    rw [Rate_of_series mc now name labels duration series hget, hempty]
    have := F64.ofInt_small 0 (by norm_num)
    simp only [List.length_nil, Nat.cast_zero]
    rw [this]
    norm_num
  refine ⟨?_, ?_, ?_, ?_, hrate, ?_, ?_⟩
  · rw [Sum_of_series mc now name labels duration series hget, hempty]; rfl
  · rw [Average_of_series mc now name labels duration series hget, hempty]; rfl
  · rw [Max_of_series mc now name labels duration series hget, hempty]; rfl
  · exact fun p => Percentile_of_empty_window mc now name labels duration p series hget hempty
  · intro hd
    rw [hrate, hd, Seconds_zero]
    simp [F64.div]
  · intro s hs0 hs hd
    rw [hrate, hd, Seconds_of_whole s hs]
    have hsq : (s : ℚ) ≠ 0 := by exact_mod_cast hs0
    simp only [F64.div, hsq, if_false, zero_div]
    have := round_intCast 0 (by norm_num)
    simpa using this

/-- A rank whose float index is `2^63` or more makes `Percentile` panic: on four values in
the window, the rank `10^21` gives the float index `4 * 10^19`, its conversion to an
integer is the least `int64`, and indexing with it is out of range. -/
theorem Percentile_out_of_range :
    Percentile fourSamples 100 "m" [] 50 (F64.fin 1000000000000000000000) = none := by
  have hget : GetMetrics fourSamples "m" [] = some fourSamplesSeries := by decide
  have hfour : F64.ofInt ((4 : Nat) : Int) = F64.fin 4 := by
    have := F64.ofInt_small 4 (by norm_num)
    simpa using this
  have hmul : F64.mul (F64.fin 4) (F64.fin 1000000000000000000000)
      = F64.fin 4000000000000000000000 := by
    have := round_of_dyadic 476837158203125 23 (by norm_num) (by norm_num) (by norm_num)
    rw [F64.mul_fin]
    norm_num at this ⊢
    exact this
  have hdiv : F64.div (F64.fin 4000000000000000000000) (F64.fin 100)
      = F64.fin 40000000000000000000 := by
    have := round_of_dyadic 19073486328125 21 (by norm_num) (by norm_num) (by norm_num)
    rw [F64.div_fin _ _ (by norm_num)]
    norm_num at this ⊢
    exact this
  have hint : toInt64 (F64.fin 40000000000000000000) = minInt64 := by
    have htrunc : truncToInt 40000000000000000000 = 40000000000000000000 := by
      unfold truncToInt
      rw [if_pos (by norm_num)]
      exact_mod_cast Int.floor_intCast (40000000000000000000 : Int)
    show (if minInt64 ≤ truncToInt 40000000000000000000 ∧
      truncToInt 40000000000000000000 < -minInt64 then truncToInt 40000000000000000000
      else minInt64) = minInt64
    rw [htrunc, if_neg (by decide)]
  have hlen : (sortFloat64s (windowValues 100 50 fourSamplesSeries)).length = 4 := by decide
  simp only [Percentile, hget, collect_eq_windowValues]
  rw [if_neg (by decide), hlen]
  unfold rankIndex
  rw [hfour, hmul, hdiv, hint]
  decide

/-! ## The percentile and the maximum -/

/-- In sorted values of which none is NaN, an earlier position holds a value that is at
most the value of a later one. -/
theorem sortFloat64s_get_le (values : List F64) (hnan : ∀ v ∈ values, v ≠ F64.nan)
    (i j : Nat) (hij : i ≤ j) (hj : j < (sortFloat64s values).length) :
    ∃ a b, (sortFloat64s values).get? i = some a ∧ (sortFloat64s values).get? j = some b ∧
      a ∈ values ∧ b ∈ values ∧ F64.le a b = true := by
  haveI : IsRefl F64 (fun x y => sortLess y x = false) :=
    ⟨fun a => (sortLess_total a a).elim id id⟩
  have hi : i < (sortFloat64s values).length := lt_of_le_of_lt hij hj
  have hrel := (sortFloat64s_sorted values).rel_get_of_le
    (show (⟨i, hi⟩ : Fin (sortFloat64s values).length) ≤ ⟨j, hj⟩ from hij)
  have hma : (sortFloat64s values).get ⟨i, hi⟩ ∈ values :=
    (mem_sortFloat64s values _).mp (List.get_mem _ _ _)
  have hmb : (sortFloat64s values).get ⟨j, hj⟩ ∈ values :=
    (mem_sortFloat64s values _).mp (List.get_mem _ _ _)
  refine ⟨(sortFloat64s values).get ⟨i, hi⟩, (sortFloat64s values).get ⟨j, hj⟩,
    List.get?_eq_get hi, List.get?_eq_get hj, hma, hmb, ?_⟩
  exact (sortLess_false_iff _ _ (hnan _ hma) (hnan _ hmb)).mp hrel

/-- `Max` of a series that exists is at least every value of the window, when none of
them is NaN. -/
theorem le_Max_of_series (mc : MetricCollector) (now : Time) (name : String)
    (labels : Labels) (duration : Duration) (series : MetricSeries)
    (hget : GetMetrics mc name labels = some series)
    (hnan : ∀ v ∈ windowValues now duration series, v ≠ F64.nan) :
    ∀ v ∈ windowValues now duration series,
      F64.le v (Max mc now name labels duration) = true := by
  intro v hv
  rw [Max_of_series mc now name labels duration series hget]
  by_cases hproper : ∃ w ∈ windowValues now duration series, w ≠ F64.nan ∧ w ≠ F64.negInf
  · obtain ⟨_, _, h3, h4⟩ := runningMax_of_proper _ hproper
    rw [if_neg h3]
    exact h4 v hv (hnan v hv)
  · have himproper : ∀ w ∈ windowValues now duration series, w = F64.nan ∨ w = F64.negInf := by
      intro w hw
      by_contra hcon
      push_neg at hcon
      exact hproper ⟨w, hw, hcon.1, hcon.2⟩
    rw [if_pos (runningMax_of_improper _ himproper)]
    rcases himproper v hv with h | h
    · exact absurd h (hnan v hv)
    · rw [h]
      rfl

/-! ## Facts about the registry -/

/-- The samples stored under a key; none when the key is absent. -/
theorem RecordMetric_at_key (now : Time) (mc : MetricCollector) (metric : Metric) :
    ∃ series, RecordMetric now mc metric (generateKey metric.Name metric.Labels) = some series ∧
      series.Values = pruneOldValues now
        ((((mc (generateKey metric.Name metric.Labels)).map (·.Values)).getD []) ++
          [sampleOf metric]) := by
  unfold RecordMetric
  cases h : mc (generateKey metric.Name metric.Labels) <;> simp [h, sampleOf]

/-- A call leaves every other key as it was. -/
theorem RecordMetric_other_key (now : Time) (mc : MetricCollector) (metric : Metric)
    (key : String) (h : key ≠ generateKey metric.Name metric.Labels) :
    RecordMetric now mc metric key = mc key := by
  simp [RecordMetric, h]

/-- The last call of a sequence runs on the registry the calls before it left. -/
theorem recordAll_append_last (mc : MetricCollector) (calls : List (Time × Metric))
    (last : Time × Metric) :
    recordAll mc (calls ++ [last]) = RecordMetric last.1 (recordAll mc calls) last.2 := by
  simp [recordAll, List.foldl_append]

/-- Pruning at a later time makes an earlier pruning redundant. -/
theorem prune_after_filter (earlier later : Time) (h : earlier ≤ later) (values : List DataPoint) :
    (values.filter (fun dp => decide (earlier - 24 * hour < dp.Timestamp))).filter
        (fun dp => decide (later - 24 * hour < dp.Timestamp))
      = values.filter (fun dp => decide (later - 24 * hour < dp.Timestamp)) := by
  rw [List.filter_filter]
  apply List.filter_congr
  intro dp _
  by_cases hl : later - 24 * hour < dp.Timestamp
  · have : earlier - 24 * hour < dp.Timestamp := by linarith
    simp [hl, this]
  · simp [hl]

/-- Samples under a key after a sequence of calls that all reach it, starting without it. -/
theorem recordAll_values (key : String) (mc : MetricCollector) (hnew : mc key = none)
    (calls : List (Time × Metric)) :
    ∀ last : Time × Metric,
      (∀ call ∈ calls ++ [last], generateKey call.2.Name call.2.Labels = key) →
      (calls ++ [last]).Pairwise (fun c d => c.1 ≤ d.1) →
      ((recordAll mc (calls ++ [last]) key).map (·.Values)).getD [] =
        ((calls ++ [last]).map (fun call => sampleOf call.2)).filter
          (fun dp => decide (last.1 - 24 * hour < dp.Timestamp)) := by
  induction calls using List.reverseRecOn with
  | nil =>
    intro last hkey _
    have hk : generateKey last.2.Name last.2.Labels = key := hkey last (by simp)
    obtain ⟨series, hs, hv⟩ := RecordMetric_at_key last.1 mc last.2
    rw [hk, hnew] at hv
    rw [hk] at hs
    simp only [List.nil_append, recordAll, List.foldl_cons, List.foldl_nil, hs]
    simp [hv, pruneOldValues]
  | append_singleton init prev ih =>
    intro last hkey htime
    have hk : generateKey last.2.Name last.2.Labels = key := hkey last (by simp)
    have hkey2 : ∀ call ∈ init ++ [prev], generateKey call.2.Name call.2.Labels = key :=
      fun call hc => hkey call (List.mem_append_left _ hc)
    have htime2 : (init ++ [prev]).Pairwise (fun c d => c.1 ≤ d.1) :=
      (List.pairwise_append.mp htime).1
    have hle : prev.1 ≤ last.1 :=
      (List.pairwise_append.mp htime).2.2 prev (by simp) last (by simp)
    have hprev := ih prev hkey2 htime2
    obtain ⟨series, hs, hv⟩ := RecordMetric_at_key last.1 (recordAll mc (init ++ [prev])) last.2
    rw [hk] at hs hv
    rw [recordAll_append_last, hs]
    simp only [Option.map_some', Option.getD_some]
    rw [hv, hprev]
    unfold pruneOldValues
    rw [List.filter_append, prune_after_filter _ _ hle]
    simp only [List.map_append, List.filter_append, List.map_cons, List.map_nil]

/-- Calls that reach the same key, made at times that do not decrease, leave under that
key exactly the recorded samples younger than 24 hours at the last call, in arrival
order. -/
theorem recordAll_retention (key : String) (calls : List (Time × Metric)) (last : Time × Metric)
    (mc : MetricCollector)
    (hnew : mc key = none)
    (hkey : ∀ call ∈ calls ++ [last], generateKey call.2.Name call.2.Labels = key)
    (htime : (calls ++ [last]).Pairwise (fun c d => c.1 ≤ d.1)) :
    ∃ series, recordAll mc (calls ++ [last]) key = some series ∧
      series.Values = ((calls ++ [last]).map (fun call => sampleOf call.2)).filter
        (fun dp => decide (last.1 - 24 * hour < dp.Timestamp)) := by
  have hv := recordAll_values key mc hnew calls last hkey htime
  have hk : generateKey last.2.Name last.2.Labels = key := hkey last (by simp)
  obtain ⟨series, hs, _⟩ := RecordMetric_at_key last.1 (recordAll mc calls) last.2
  rw [hk, ← recordAll_append_last] at hs
  refine ⟨series, hs, ?_⟩
  rw [hs] at hv
  simpa using hv

/-! ## Facts about the rule engine -/

/-- The operator switch recognises the symbol of each of the six operators. -/
theorem compareOp_symbol (op : Operator) (value threshold : F64) :
    compareOp op.symbol value threshold = some (op.holds value threshold) := by
  cases op <;> rfl

/-- The operator switch takes its `default` branch on anything else. -/
theorem compareOp_unknown (operator : String) (value threshold : F64)
    (h : ∀ op : Operator, operator ≠ op.symbol) :
    compareOp operator value threshold = none := by
  have h1 := h .gt
  have h2 := h .ge
  have h3 := h .lt
  have h4 := h .le
  have h5 := h .eq
  have h6 := h .ne
  simp only [Operator.symbol] at h1 h2 h3 h4 h5 h6
  simp [compareOp, h1, h2, h3, h4, h5, h6]

/-- With a duration that parses, `evaluateRule` is the operator switch on the query value. -/
theorem evaluateRule_of_parse (rt : Runtime) (tr : Traversal) (mc : MetricCollector)
    (now : Time) (rule : AlertRule) (duration : Duration)
    (hd : rt.parseDuration rule.Duration = some duration) :
    evaluateRule rt tr mc now rule =
      match compareOp rule.Operator (executeQuery tr mc now rule.Query duration)
          rule.Threshold with
      | none => none
      | some triggered =>
        if triggered then some (firingAlert rule (executeQuery tr mc now rule.Query duration) now)
        else none := by
  simp only [evaluateRule, hd, firingAlert]

/-- A traversal of a one-entry map visits that entry. -/
theorem order_singleton (tr : Traversal) (kv : String × String) :
    tr.order [kv] = [kv] :=
  List.perm_singleton.mp (tr.perm [kv])

/-- A rule whose duration does not parse yields no alert. -/
theorem evaluateRule_bad_duration (rt : Runtime) (tr : Traversal) (mc : MetricCollector)
    (now : Time) (rule : AlertRule) (hd : rt.parseDuration rule.Duration = none) :
    evaluateRule rt tr mc now rule = none := by
  simp only [evaluateRule, hd]

/-- A rule whose operator is none of the six yields no alert. -/
theorem evaluateRule_bad_operator (rt : Runtime) (tr : Traversal) (mc : MetricCollector)
    (now : Time) (rule : AlertRule) (hop : ∀ op : Operator, rule.Operator ≠ op.symbol) :
    evaluateRule rt tr mc now rule = none := by
  cases hd : rt.parseDuration rule.Duration with
  | none => exact evaluateRule_bad_duration rt tr mc now rule hd
  | some duration =>
    rw [evaluateRule_of_parse rt tr mc now rule duration hd, compareOp_unknown _ _ _ hop]

/-- A pass over two lists of rules in a row is a pass over the first, then one over the
second on the channel the first left. -/
theorem evaluateRulesFrom_append (rt : Runtime) (mc : MetricCollector) (pass : Pass)
    (before after : List AlertRule) (i : Nat) (ch : AlertChan) :
    evaluateRulesFrom rt mc pass i (before ++ after) ch =
      evaluateRulesFrom rt mc pass (i + before.length) after
        (evaluateRulesFrom rt mc pass i before ch) := by
  induction before generalizing i ch with
  | nil => simp [evaluateRulesFrom]
  | cons rule rest ih =>
    simp only [List.cons_append, evaluateRulesFrom, List.length_cons]
    have hidx : i + 1 + rest.length = i + (rest.length + 1) := by omega
    cases evaluateRule rt (pass.order i) mc (pass.clock i) rule with
    | none => rw [← hidx]; exact ih (i + 1) ch
    | some alert =>
      rw [← hidx]
      exact ih (i + 1) ((ch.receive (pass.taken i)).trySend alert)

/-- A receive leaves the capacity and never lengthens the buffer. -/
theorem receive_length (ch : AlertChan) (k : Nat) :
    (ch.receive k).capacity = ch.capacity ∧ (ch.receive k).buffer.length ≤ ch.buffer.length := by
  simp [AlertChan.receive]

/-- A send leaves the capacity, and a buffer within the capacity stays within it. -/
theorem trySend_length (ch : AlertChan) (alert : Alert) :
    (ch.trySend alert).capacity = ch.capacity ∧
      (ch.buffer.length ≤ ch.capacity → (ch.trySend alert).buffer.length ≤ ch.capacity) := by
  unfold AlertChan.trySend
  split_ifs with h
  · simp only [List.length_append, List.length_singleton, true_and]
    omega
  · exact ⟨rfl, id⟩

/-- A pass leaves the capacity of the channel, and a buffer within it stays within it. -/
theorem evaluateRulesFrom_length (rt : Runtime) (mc : MetricCollector) (pass : Pass)
    (rules : List AlertRule) (i : Nat) (ch : AlertChan) :
    (evaluateRulesFrom rt mc pass i rules ch).capacity = ch.capacity ∧
      (ch.buffer.length ≤ ch.capacity →
        (evaluateRulesFrom rt mc pass i rules ch).buffer.length ≤ ch.capacity) := by
  induction rules generalizing i ch with
  | nil => exact ⟨rfl, id⟩
  | cons rule rest ih =>
    simp only [evaluateRulesFrom]
    cases evaluateRule rt (pass.order i) mc (pass.clock i) rule with
    | none => exact ih (i + 1) ch
    | some alert =>
      obtain ⟨hcap, hlen⟩ := ih (i + 1) ((ch.receive (pass.taken i)).trySend alert)
      obtain ⟨hc1, hl1⟩ := receive_length ch (pass.taken i)
      obtain ⟨hc2, hl2⟩ := trySend_length (ch.receive (pass.taken i)) alert
      refine ⟨by rw [hcap, hc2, hc1], fun h => ?_⟩
      have := hlen (by rw [hc2]; exact hl2 (by rw [hc1]; omega))
      rw [hc2, hc1] at this
      exact this

/-- What a pass leaves in the buffer was in it before or is the alert of a rule of the
pass, in the order of arrival. -/
theorem evaluateRulesFrom_sublist (rt : Runtime) (mc : MetricCollector) (pass : Pass)
    (rules : List AlertRule) (i : Nat) (ch : AlertChan) :
    (evaluateRulesFrom rt mc pass i rules ch).buffer.Sublist
      (ch.buffer ++ firingAlerts rt mc pass i rules) := by
  induction rules generalizing i ch with
  | nil => simp [evaluateRulesFrom, firingAlerts]
  | cons rule rest ih =>
    simp only [evaluateRulesFrom, firingAlerts]
    cases evaluateRule rt (pass.order i) mc (pass.clock i) rule with
    | none => exact ih (i + 1) ch
    | some alert =>
      refine (ih (i + 1) ((ch.receive (pass.taken i)).trySend alert)).trans ?_
      have hsend : ((ch.receive (pass.taken i)).trySend alert).buffer.Sublist
          (ch.buffer ++ [alert]) := by
        unfold AlertChan.trySend AlertChan.receive
        split_ifs
        · exact List.Sublist.append (List.drop_sublist _ _) (List.Sublist.refl _)
        · exact (List.drop_sublist _ _).trans (List.sublist_append_left _ _)
      have := List.Sublist.append hsend (List.Sublist.refl (firingAlerts rt mc pass (i + 1) rest))
      simpa using this

/-! ## Facts about the parsing of a query -/

/-- Splitting a text without `=` gives the text back, after what was read so far. -/
theorem splitAux_of_count_zero (cs cur : List Char) (h : cs.count '=' = 0) :
    splitAux cs cur = [String.mk (cur.reverse ++ cs)] := by
  induction cs generalizing cur with
  | nil => simp [splitAux]
  | cons c cs ih =>
    by_cases hc : c = '='
    · subst hc
      simp at h
    · have hcount : cs.count '=' = 0 := by
        rw [List.count_cons] at h
        omega
      simp only [splitAux, hc, if_false]
      rw [ih (c :: cur) hcount]
      simp

/-- Splitting a text gives one piece more than it has `=`. -/
theorem splitAux_length (cs cur : List Char) :
    (splitAux cs cur).length = cs.count '=' + 1 := by
  induction cs generalizing cur with
  | nil => simp [splitAux]
  | cons c cs ih =>
    by_cases hc : c = '='
    · subst hc
      simp [splitAux, ih]
    · have hne : (c == '=') = false := by simpa using hc
      simp [splitAux, hc, ih, List.count_cons, hne]

/-- Splitting a text with exactly one `=` gives the text before it and the text after it. -/
theorem splitAux_of_count_one (cs cur : List Char) (h : cs.count '=' = 1) :
    splitAux cs cur =
      [String.mk (cur.reverse ++ cs.takeWhile (fun c => c != '=')),
        String.mk ((cs.dropWhile (fun c => c != '=')).drop 1)] := by
  induction cs generalizing cur with
  | nil => simp at h
  | cons c cs ih =>
    by_cases hc : c = '='
    · subst hc
      have hcount : cs.count '=' = 0 := by
        rw [List.count_cons] at h
        simpa using h
      simp only [splitAux, if_true]
      rw [splitAux_of_count_zero cs [] hcount]
      simp
    · have hne : (c == '=') = false := by simpa using hc
      have hcount : cs.count '=' = 1 := by
        rw [List.count_cons, hne] at h
        simpa using h
      have hb : (c != '=') = true := by simpa using hc
      simp only [splitAux, hc, if_false]
      rw [ih (c :: cur) hcount]
      simp [List.takeWhile_cons, List.dropWhile_cons, hb]

/-- A token contains `=` exactly when its count of `=` is not zero. -/
theorem containsEq_iff (tok : String) : containsEq tok = true ↔ countEq tok ≠ 0 := by
  unfold containsEq countEq
  rw [List.elem_eq_mem, decide_eq_true_iff, ← List.count_pos_iff]
  omega

/-- One round of the label loop of `executeQuery` assigns the label of the token, if the
token is one. -/
theorem labelStep_eq (labels : Labels) (tok : String) :
    (if containsEq tok then
        match splitEq tok with
        | [k, v] => mapSet labels k v
        | _ => labels
      else labels)
      = match keyValue tok with
        | some kv => mapSet labels kv.1 kv.2
        | none => labels := by
  by_cases h0 : countEq tok = 0
  · have hc : containsEq tok = false := by
      rw [← Bool.not_eq_true, containsEq_iff]
      simpa using h0
    simp [hc, keyValue, h0]
  · have hc : containsEq tok = true := (containsEq_iff tok).mpr h0
    by_cases h1 : countEq tok = 1
    · have hs := splitAux_of_count_one tok.data [] h1
      simp only [List.reverse_nil, List.nil_append] at hs
      simp only [hc, if_true, splitEq, hs, keyValue, h1]
    · have hlen : (splitEq tok).length = countEq tok + 1 := splitAux_length tok.data []
      have h3 : 3 ≤ (splitEq tok).length := by omega
      have hsplit : (match splitEq tok with
          | [k, v] => mapSet labels k v
          | _ => labels) = labels := by
        split
        · next k v heq => rw [heq] at h3; simp at h3
        · rfl
      simp only [hc, if_true, hsplit, keyValue, h1, if_false]

/-- The label loop of `executeQuery`, from any partial map, assigns the labels among the
tokens in order. -/
theorem parseLabels_foldl (rest : List String) (labels : Labels) :
    rest.foldl
      (fun labels part =>
        if containsEq part then
          match splitEq part with
          | [k, v] => mapSet labels k v
          | _ => labels
        else labels) labels
      = (rest.filterMap keyValue).foldl (fun labels kv => mapSet labels kv.1 kv.2) labels := by
  induction rest generalizing labels with
  | nil => rfl
  | cons tok rest ih =>
    simp only [List.foldl_cons, List.filterMap_cons]
    rw [labelStep_eq, ih]
    cases keyValue tok <;> rfl

/-- The label loop of `executeQuery` builds the label filter of the specification. -/
theorem parseLabels_eq_labelFilter (rest : List String) : parseLabels rest = labelFilter rest :=
  parseLabels_foldl rest []

/-- The label filter reads the tokens with exactly one `=` and no other. -/
theorem labelFilter_filter (rest : List String) :
    labelFilter (rest.filter (fun tok => decide (countEq tok = 1))) = labelFilter rest := by
  unfold labelFilter
  congr 1
  induction rest with
  | nil => rfl
  | cons tok rest ih =>
    by_cases h1 : countEq tok = 1
    · simp only [List.filter_cons, h1, decide_True, if_true, List.filterMap_cons, ih]
    · have hk : keyValue tok = none := by simp [keyValue, h1]
      simp only [List.filter_cons, h1, decide_False, List.filterMap_cons, hk]
      simpa using ih

/-- `executeQuery` on a query of at least two tokens: the dispatch on the first token, for
the metric named by the second and the label filter of the others. -/
theorem executeQuery_of_fields (tr : Traversal) (mc : MetricCollector) (now : Time)
    (duration : Duration) (query function metricName : String) (rest : List String)
    (hf : Fields query = function :: metricName :: rest) :
    executeQuery tr mc now query duration =
      if function = "sum" then Sum mc now metricName (tr.order (labelFilter rest)) duration
      else if function = "avg" then
        Average mc now metricName (tr.order (labelFilter rest)) duration
      else if function = "max" then Max mc now metricName (tr.order (labelFilter rest)) duration
      else if function = "rate" then
        Rate mc now metricName (tr.order (labelFilter rest)) duration
      else if function = "p95" then
        (Percentile mc now metricName (tr.order (labelFilter rest)) duration (F64.fin 95)).getD
          (F64.fin 0)
      else if function = "p99" then
        (Percentile mc now metricName (tr.order (labelFilter rest)) duration (F64.fin 99)).getD
          (F64.fin 0)
      else F64.fin 0 := by
  simp only [executeQuery, hf, parseLabels_eq_labelFilter]

/-- Under one traversal of the label map, two queries with the same function, the same
metric and the same well-formed label tokens have the same result. -/
theorem executeQuery_skips_malformed (tr : Traversal) (mc : MetricCollector) (now : Time)
    (duration : Duration) (query query2 function metricName : String) (rest rest2 : List String)
    (hf : Fields query = function :: metricName :: rest)
    (hf2 : Fields query2 = function :: metricName :: rest2)
    (hrest : rest.filter (fun tok => decide (countEq tok = 1))
      = rest2.filter (fun tok => decide (countEq tok = 1))) :
    executeQuery tr mc now query duration = executeQuery tr mc now query2 duration := by
  rw [executeQuery_of_fields tr mc now duration query function metricName rest hf,
    executeQuery_of_fields tr mc now duration query2 function metricName rest2 hf2,
    ← labelFilter_filter rest, ← labelFilter_filter rest2, hrest]

/-! ## C1: nearest-rank percentile -/

/-- C1, at the series `lat` that holds 14, 0, 1, 2, 3, 4 and 5, all in the window, and the
rank `14.285714285714285` (the double below 100/7): `floor (7 * p / 100)` is 0, so the
claimed element is the least value, 0; `Aggregator.Percentile` returns 1, the element at
index 1, because the product `float64(7) * p` rounds up to 100. -/
theorem Percentile_index_rounds :
    GetMetrics sevenLatencies "lat" [] = some sevenLatenciesSeries ∧
      (strictWindow 100 50 sevenLatenciesSeries).length = 7 ∧
      0 ≤ rankSeventh ∧
      min ⌊(7 : ℚ) * rankSeventh / 100⌋.toNat (7 - 1) = 0 ∧
      (sortFloat64s (strictWindow 100 50 sevenLatenciesSeries)).get? 0 = some (F64.fin 0) ∧
      Percentile sevenLatencies 100 "lat" [] 50 (F64.fin rankSeventh) = some (F64.fin 1) := by
  have hget : GetMetrics sevenLatencies "lat" [] = some sevenLatenciesSeries := by decide
  have hlen : (windowValues 100 50 sevenLatenciesSeries).length = 7 := by decide
  have hfloor : ⌊(7 : ℚ) * rankSeventh / 100⌋ = 0 := by
    rw [Int.floor_eq_iff]
    unfold rankSeventh
    constructor <;> norm_num
  have hseven : F64.ofInt ((7 : Nat) : Int) = F64.fin 7 := by
    have := F64.ofInt_small 7 (by norm_num)
    simpa using this
  have hmul : F64.mul (F64.fin 7) (F64.fin rankSeventh) = F64.fin 100 := by
    have := round_eq_of_tie_below (7 * rankSeventh) 6 7036874417766400
      (by unfold rankSeventh; norm_num) (by norm_num) (by norm_num)
      (by unfold rankSeventh; norm_num) (by unfold rankSeventh; norm_num)
      (by unfold rankSeventh; norm_num) (by norm_num)
    rw [F64.mul_fin]
    norm_num at this ⊢
    exact this
  have hdiv : F64.div (F64.fin 100) (F64.fin 100) = F64.fin 1 := by
    have := round_of_dyadic 1 0 (by norm_num) (by norm_num) (by norm_num)
    rw [F64.div_fin 100 100 (by norm_num)]
    norm_num at this ⊢
    exact this
  have hrank : rankIndex (windowValues 100 50 sevenLatenciesSeries).length
      (F64.fin rankSeventh) = F64.fin 1 := by
    rw [hlen]
    unfold rankIndex
    rw [hseven, hmul, hdiv]
  have hone : ⌊(1 : ℚ)⌋ = 1 := Int.floor_one
  refine ⟨hget, by decide, by unfold rankSeventh; norm_num, ?_, by decide, ?_⟩
  · rw [hfloor]
    rfl
  · rw [Percentile_of_series sevenLatencies 100 "lat" [] 50 (F64.fin rankSeventh)
      sevenLatenciesSeries 1 hget (by decide) hrank (by norm_num) (by norm_num), hone, hlen]
    decide

/-- C1, amended. `Aggregator.Percentile` is nearest-rank on a float index.  Take a series
that exists and a window whose duration is not the least `int64`, such that the values of
the samples with a timestamp strictly after `now - duration` are a non-empty list of `n`
values, and let `sorted` be those values in the order of `sort.Float64s` (NaN first, then
ascending).  When the double `float64(n) * p / 100`, rounded after the product and after
the quotient, is a finite `x` with `0 ≤ x < 2^63`, `Percentile` returns the element of
`sorted` at index `min (floor x) (n - 1)`, which is in range, with no interpolation.  That
is so for every rank `0 ≤ p ≤ 100` when `n < 2^53`; and when `n * p` is `100 * i` for a
natural number `i` with `100 * i < 2^53`, the index is `min i (n - 1)`, the index
`min (floor (n * p / 100)) (n - 1)`. -/
theorem Percentile_nearest_rank (mc : MetricCollector) (now : Time) (name : String)
    (labels : Labels) (duration : Duration) (percentile : F64) (series : MetricSeries)
    (sorted : List F64)
    (hget : GetMetrics mc name labels = some series) (hd : duration.Negatable)
    (hne : strictWindow now duration series ≠ [])
    (hperm : sorted.Perm (strictWindow now duration series))
    (hsorted : sorted.Sorted (fun x y => sortLess y x = false)) :
    (∀ x : ℚ, rankIndex (strictWindow now duration series).length percentile = F64.fin x →
      0 ≤ x → x < 9223372036854775808 →
      min ⌊x⌋.toNat ((strictWindow now duration series).length - 1) < sorted.length ∧
        Percentile mc now name labels duration percentile =
          sorted.get? (min ⌊x⌋.toNat ((strictWindow now duration series).length - 1))) ∧
    (∀ p : ℚ, percentile = F64.fin p → 0 ≤ p → p ≤ 100 →
      (strictWindow now duration series).length < 2 ^ 53 →
      ∃ x, rankIndex (strictWindow now duration series).length percentile = F64.fin x ∧
        0 ≤ x ∧ x < 9223372036854775808) ∧
    (∀ (p : ℚ) (i : Nat), percentile = F64.fin p →
      (strictWindow now duration series).length < 2 ^ 53 → 100 * i < 2 ^ 53 →
      ((strictWindow now duration series).length : ℚ) * p = 100 * (i : ℚ) →
      ⌊((strictWindow now duration series).length : ℚ) * p / 100⌋.toNat = i ∧
        Percentile mc now name labels duration percentile =
          sorted.get? (min i ((strictWindow now duration series).length - 1))) := by
  have hw := windowValues_eq_strictWindow now duration series hd
  have hlen : sorted.length = (strictWindow now duration series).length := hperm.length_eq
  have hpos : 0 < (strictWindow now duration series).length := List.length_pos.mpr hne
  have hfloat : ∀ x : ℚ,
      rankIndex (strictWindow now duration series).length percentile = F64.fin x →
      0 ≤ x → x < 9223372036854775808 →
      min ⌊x⌋.toNat ((strictWindow now duration series).length - 1) < sorted.length ∧
        Percentile mc now name labels duration percentile =
          sorted.get? (min ⌊x⌋.toNat ((strictWindow now duration series).length - 1)) := by
    intro x hidx h0 hlt
    refine ⟨by omega, ?_⟩
    rw [Percentile_of_series mc now name labels duration percentile series x hget
      (by rw [hw]; exact hne) (by rw [hw]; exact hidx) h0 hlt, hw,
      sortFloat64s_eq_of_perm_sorted _ _ hperm hsorted]
  refine ⟨hfloat, ?_, ?_⟩
  · intro p hperc hp hp2 hn
    rw [hperc]
    exact rankIndex_in_range _ p hn hp hp2
  · intro p i hperc hn hi hprod
    have hof : F64.ofInt ((strictWindow now duration series).length : Nat)
        = F64.fin ((strictWindow now duration series).length : ℚ) := by
      unfold F64.ofInt
      have := round_natCast (strictWindow now duration series).length hn
      simpa using this
    have hmul : F64.round (100 * (i : ℚ)) = F64.fin (100 * (i : ℚ)) := by
      have := round_natCast (100 * i) hi
      simpa using this
    have hquot : F64.round ((i : ℚ)) = F64.fin (i : ℚ) :=
      round_natCast i (by omega)
    have hidx : rankIndex (strictWindow now duration series).length percentile
        = F64.fin (i : ℚ) := by
      unfold rankIndex
      rw [hperc, hof, F64.mul_fin, hprod, hmul, F64.div_fin _ _ (by norm_num),
        mul_div_cancel_left₀ _ (by norm_num)]
      exact hquot
    have hfl : ⌊((i : Nat) : ℚ)⌋ = (i : Int) := Int.floor_natCast i
    have h := (hfloat (i : ℚ) hidx (Nat.cast_nonneg i)
      (by
        have : (i : ℚ) < 9007199254740992 := by
          have h2 : i < 9007199254740992 := by omega
          exact_mod_cast h2
        linarith)).2
    rw [hfl, Int.toNat_ofNat] at h
    refine ⟨?_, h⟩
    rw [hprod, mul_div_cancel_left₀ _ (by norm_num), hfl, Int.toNat_ofNat]

/-- C1, amended, at the values 10, 20, 30, 40 (recorded out of order, all in the window):
rank 50 reads index 2 of the sorted values, which is 30. -/
theorem Percentile_nearest_rank_witness :
    Percentile fourSamples 100 "m" [] 50 (F64.fin 50) = some (F64.fin 30) := by
  have hlen : (strictWindow 100 50 fourSamplesSeries).length = 4 := by decide
  have h := ((Percentile_nearest_rank fourSamples 100 "m" [] 50 (F64.fin 50)
    fourSamplesSeries [F64.fin 10, F64.fin 20, F64.fin 30, F64.fin 40]
    (by decide) ⟨by decide, by decide⟩ (by decide) (by decide) (by decide)).2.2 50 2 rfl
    (by rw [hlen]; norm_num) (by norm_num) (by rw [hlen]; norm_num)).2
  rw [h, hlen]
  rfl

/-! ## C2: a rule fires exactly when its comparison holds -/

/-- C2. For every rule whose duration string parses to `duration` and whose operator is one
of the six comparison operators, `Engine.evaluateRule` returns an alert with status
"firing" if and only if `value <operator> threshold` holds, where `value` is the result of
the rule's query over the window `duration`; the alert then is the snapshot of the rule
with that value.  For the query `avg cpu_usage host=web1` the value is
`Average("cpu_usage", {host: web1}, duration)`, so with operator `>` and threshold 80 the
rule fires iff that average is greater than 80, and not when it equals 80. -/
theorem evaluateRule_fires_iff (rt : Runtime) (tr : Traversal) (mc : MetricCollector)
    (now : Time) (rule : AlertRule) (duration : Duration) (op : Operator)
    (hd : rt.parseDuration rule.Duration = some duration)
    (hop : rule.Operator = op.symbol) :
    ((∃ alert, evaluateRule rt tr mc now rule = some alert ∧ alert.Status = "firing") ↔
        op.holds (executeQuery tr mc now rule.Query duration) rule.Threshold = true) ∧
    (∀ alert, evaluateRule rt tr mc now rule = some alert →
        alert = firingAlert rule (executeQuery tr mc now rule.Query duration) now) ∧
    (rule.Query = "avg cpu_usage host=web1" → op = Operator.gt → rule.Threshold = F64.fin 80 →
      (((∃ alert, evaluateRule rt tr mc now rule = some alert ∧ alert.Status = "firing") ↔
          F64.gt (Average mc now "cpu_usage" [("host", "web1")] duration) (F64.fin 80) = true) ∧
        (Average mc now "cpu_usage" [("host", "web1")] duration = F64.fin 80 →
          evaluateRule rt tr mc now rule = none))) := by
  have heval := evaluateRule_of_parse rt tr mc now rule duration hd
  rw [hop, compareOp_symbol] at heval
  have hiff : (∃ alert, evaluateRule rt tr mc now rule = some alert ∧ alert.Status = "firing") ↔
      op.holds (executeQuery tr mc now rule.Query duration) rule.Threshold = true := by
    rw [heval]
    cases hh : op.holds (executeQuery tr mc now rule.Query duration) rule.Threshold
    · simp
    · simp [firingAlert]
  refine ⟨hiff, ?_, ?_⟩
  · intro alert halert
    rw [heval] at halert
    cases hh : op.holds (executeQuery tr mc now rule.Query duration) rule.Threshold
    · simp [hh] at halert
    · simp [hh] at halert
      exact halert.symm
  · intro hq hgt ht
    have hquery : executeQuery tr mc now rule.Query duration =
        Average mc now "cpu_usage" [("host", "web1")] duration := by
      have hf : Fields "avg cpu_usage host=web1" = ["avg", "cpu_usage", "host=web1"] := by decide
      have hl : parseLabels ["host=web1"] = [("host", "web1")] := by decide
      rw [hq]
      simp only [executeQuery, hf, hl, order_singleton]
      simp
    rw [hiff, hgt, ht, hquery]
    refine ⟨Iff.rfl, ?_⟩
    intro havg
    rw [heval, hgt, ht, hquery, havg]
    have : Operator.gt.holds (F64.fin 80) (F64.fin 80) = false := by decide
    simp [this]

/-- C2 at the rule of the specification, read with `5m` parsed as five minutes: it fires on
the samples 90 and 71 (average 80.5) and stays silent on 90 and 70 (average exactly 80). -/
theorem evaluateRule_fires_iff_witness :
    (∃ alert, evaluateRule sampleRuntime inOrder cpuAbove 100 cpuRule = some alert ∧
        alert.Status = "firing") ∧
      evaluateRule sampleRuntime inOrder cpuExact 100 cpuRule = none := by
  have hd : sampleRuntime.parseDuration cpuRule.Duration = some 300000000000 := by decide
  have hop : cpuRule.Operator = Operator.gt.symbol := by decide
  have hA := (evaluateRule_fires_iff sampleRuntime inOrder cpuAbove 100 cpuRule 300000000000
    Operator.gt hd hop).2.2 rfl rfl rfl
  have hE := (evaluateRule_fires_iff sampleRuntime inOrder cpuExact 100 cpuRule 300000000000
    Operator.gt hd hop).2.2 rfl rfl rfl
  have h0_90 : F64.add (F64.fin 0) (F64.fin 90) = F64.fin 90 := by
    have := F64.add_of_int 0 90 90 (by norm_num) (by norm_num)
    simpa using this
  have hA2 : Average cpuAbove 100 "cpu_usage" [("host", "web1")] 300000000000
      = F64.fin (161 / 2) := by
    have hget : GetMetrics cpuAbove "cpu_usage" [("host", "web1")] =
        some ⟨"cpu_usage", "gauge", [⟨F64.fin 90, 99⟩, ⟨F64.fin 71, 99⟩], [("host", "web1")]⟩ := by
      decide
    have hw : windowValues 100 300000000000
        ⟨"cpu_usage", "gauge", [⟨F64.fin 90, 99⟩, ⟨F64.fin 71, 99⟩], [("host", "web1")]⟩
          = [F64.fin 90, F64.fin 71] := by decide
    have h161 : F64.add (F64.fin 90) (F64.fin 71) = F64.fin 161 := by
      have := F64.add_of_int 90 71 161 (by norm_num) (by norm_num)
      simpa using this
    have hdiv : F64.div (F64.fin 161) (F64.fin 2) = F64.fin (161 / 2) := by
      have := F64.div_of_dyadic 161 2 161 (-1) (by norm_num) (by norm_num) (by norm_num)
        (by norm_num) (by norm_num)
      norm_num at this ⊢
      exact this
    have hof : F64.ofInt ((2 : Nat) : Int) = F64.fin 2 := by
      have := F64.ofInt_small 2 (by norm_num)
      simpa using this
    rw [Average_of_series _ _ _ _ _ _ hget, hw]
    simp only [List.length_cons, List.length_nil, List.foldl_cons, List.foldl_nil]
    rw [if_neg (by norm_num), h0_90, h161]
    exact hof ▸ hdiv
  have hE2 : Average cpuExact 100 "cpu_usage" [("host", "web1")] 300000000000 = F64.fin 80 := by
    have hget : GetMetrics cpuExact "cpu_usage" [("host", "web1")] =
        some ⟨"cpu_usage", "gauge", [⟨F64.fin 90, 99⟩, ⟨F64.fin 70, 99⟩], [("host", "web1")]⟩ := by
      decide
    have hw : windowValues 100 300000000000
        ⟨"cpu_usage", "gauge", [⟨F64.fin 90, 99⟩, ⟨F64.fin 70, 99⟩], [("host", "web1")]⟩
          = [F64.fin 90, F64.fin 70] := by decide
    have h160 : F64.add (F64.fin 90) (F64.fin 70) = F64.fin 160 := by
      have := F64.add_of_int 90 70 160 (by norm_num) (by norm_num)
      simpa using this
    have hdiv : F64.div (F64.fin 160) (F64.fin 2) = F64.fin 80 := by
      have := F64.div_of_dyadic 160 2 80 0 (by norm_num) (by norm_num) (by norm_num)
        (by norm_num) (by norm_num)
      norm_num at this ⊢
      exact this
    have hof : F64.ofInt ((2 : Nat) : Int) = F64.fin 2 := by
      have := F64.ofInt_small 2 (by norm_num)
      simpa using this
    rw [Average_of_series _ _ _ _ _ _ hget, hw]
    simp only [List.length_cons, List.length_nil, List.foldl_cons, List.foldl_nil]
    rw [if_neg (by norm_num), h0_90, h160]
    exact hof ▸ hdiv
  refine ⟨hA.1.mpr ?_, hE.2 hE2⟩
  rw [hA2]
  simp [F64.gt, F64.lt]
  norm_num

/-! ## C3: the lookup key depends on the order of the labels -/

/-- C3, at the label set `{a: 1, b: 2}`: its two enumerations give different keys, so a
sample recorded under one is not found by a lookup that visits the labels the other way. -/
theorem generateKey_order_dependent :
    labelsAB.Perm labelsBA ∧
      generateKey "cpu" labelsAB = "cpu__a=1__b=2" ∧
      generateKey "cpu" labelsBA = "cpu__b=2__a=1" ∧
      generateKey "cpu" labelsAB ≠ generateKey "cpu" labelsBA ∧
      GetMetrics (RecordMetric 100 NewMetricCollector ⟨"cpu", F64.fin 1, 99, labelsAB, "gauge"⟩)
        "cpu" labelsBA = none := by
  refine ⟨List.Perm.swap _ _ _, by decide, by decide, by decide, by decide⟩

/-! ## C4: distinct identities can share a key -/

/-- C4, at the name `a` with labels `{b: c}` against the name `a__b=c` with no labels: the
two identities differ and get the same key, so a sample of the first is found in the
series of the second. -/
theorem generateKey_collision :
    ("a", ([("b", "c")] : Labels)) ≠ ("a__b=c", ([] : Labels)) ∧
      generateKey "a" [("b", "c")] = generateKey "a__b=c" [] ∧
      GetMetrics (RecordMetric 100 NewMetricCollector ⟨"a", F64.fin 7, 99, [("b", "c")], "gauge"⟩)
        "a__b=c" [] = some ⟨"a", "gauge", [⟨F64.fin 7, 99⟩], [("b", "c")]⟩ := by
  refine ⟨by decide, by decide, by decide⟩

/-! ## C5: retention of a series -/

/-- C5, at two calls for the identity `cpu{a=1,b=2}` whose traversals visit the labels in
opposite orders: the samples land in two series, and neither holds both. -/
theorem recordAll_splits_identity :
    labelsAB.Perm labelsBA ∧
      (GetMetrics (recordAll NewMetricCollector twoCalls) "cpu" labelsAB).map (·.Values)
        = some [⟨F64.fin 1, 99⟩] ∧
      (GetMetrics (recordAll NewMetricCollector twoCalls) "cpu" labelsBA).map (·.Values)
        = some [⟨F64.fin 2, 99⟩] := by
  refine ⟨List.Perm.swap _ _ _, by decide, by decide⟩

/-! ## C6: the zero-value policy -/

/-- C6, at the series `m` read at time 100 over a window of length zero: the series exists
and has no sample after `now - 0`; `Sum`, `Average`, `Max` and `Percentile` return 0, and
`Rate` divides a count of zero by zero seconds, which is NaN and not 0. -/
theorem Rate_zero_window_nan :
    (∃ series, GetMetrics oneSample "m" [] = some series ∧ windowValues 100 0 series = []) ∧
      Sum oneSample 100 "m" [] 0 = F64.fin 0 ∧
      Average oneSample 100 "m" [] 0 = F64.fin 0 ∧
      Max oneSample 100 "m" [] 0 = F64.fin 0 ∧
      Percentile oneSample 100 "m" [] 0 (F64.fin 95) = some (F64.fin 0) ∧
      Rate oneSample 100 "m" [] 0 = F64.nan ∧
      F64.eq (Rate oneSample 100 "m" [] 0) (F64.fin 0) = false := by
  have hget : GetMetrics oneSample "m" [] = some oneSampleSeries := by decide
  have hempty : windowValues 100 0 oneSampleSeries = [] := by decide
  obtain ⟨hsum, havg, hmax, hperc, _, hrate, _⟩ :=
    aggregations_of_empty_window oneSample 100 "m" [] 0 _ hget hempty
  refine ⟨⟨_, hget, hempty⟩, hsum, havg, hmax, hperc (F64.fin 95), hrate rfl, ?_⟩
  rw [hrate rfl]
  rfl

/-! ## C7: the drop policy of the alert channel -/

/-- C7. One pass of `Engine.evaluateRules`, with the alert channel a queue of capacity `c`
from which a consumer may receive between the sends.  For every rule of the list, whatever
happened to the rules before it (dropped alerts included): the rule is evaluated next, on
the channel the rules before it left; if it fires, its alert is appended when the queue
holds, after what the consumer received, fewer than `c` alerts at that moment, and is
dropped otherwise; and the pass goes on with the rules after it.  The pass keeps the
capacity, never makes a queue that held at most `c` alerts hold more, and leaves in the
queue only alerts that were in it or that rules of the pass produced, in order. -/
theorem evaluateRules_backpressure (rt : Runtime) (pass : Pass) (e : Engine) :
    (∀ before rule after, e.rules = before ++ rule :: after →
      (evaluateRules rt pass e).alertChan =
        evaluateRulesFrom rt e.aggregator pass (before.length + 1) after
          (match evaluateRule rt (pass.order before.length) e.aggregator
              (pass.clock before.length) rule with
            | some alert =>
              if ((evaluateRulesFrom rt e.aggregator pass 0 before e.alertChan).buffer.drop
                  (pass.taken before.length)).length < e.alertChan.capacity then
                { e.alertChan with
                  buffer := (evaluateRulesFrom rt e.aggregator pass 0 before
                    e.alertChan).buffer.drop (pass.taken before.length) ++ [alert] }
              else
                { e.alertChan with
                  buffer := (evaluateRulesFrom rt e.aggregator pass 0 before
                    e.alertChan).buffer.drop (pass.taken before.length) }
            | none => evaluateRulesFrom rt e.aggregator pass 0 before e.alertChan)) ∧
    (evaluateRules rt pass e).alertChan.capacity = e.alertChan.capacity ∧
    (e.alertChan.buffer.length ≤ e.alertChan.capacity →
      (evaluateRules rt pass e).alertChan.buffer.length ≤ e.alertChan.capacity) ∧
    (evaluateRules rt pass e).alertChan.buffer.Sublist
      (e.alertChan.buffer ++ firingAlerts rt e.aggregator pass 0 e.rules) := by
  have hlen := evaluateRulesFrom_length rt e.aggregator pass e.rules 0 e.alertChan
  refine ⟨?_, hlen.1, hlen.2, evaluateRulesFrom_sublist rt e.aggregator pass e.rules 0 e.alertChan⟩
  intro before rule after hrules
  have hcap := (evaluateRulesFrom_length rt e.aggregator pass before 0 e.alertChan).1
  show evaluateRulesFrom rt e.aggregator pass 0 e.rules e.alertChan = _
  rw [hrules, evaluateRulesFrom_append, Nat.zero_add]
  simp only [evaluateRulesFrom]
  cases evaluateRule rt (pass.order before.length) e.aggregator (pass.clock before.length)
      rule with
  | none => rfl
  | some alert =>
    generalize evaluateRulesFrom rt e.aggregator pass 0 before e.alertChan = ch at hcap
    cases ch with
    | mk buffer capacity buffered =>
      simp only at hcap
      subst hcap
      simp only [AlertChan.trySend, AlertChan.receive]

/-- C7 on an engine with an empty channel of capacity 1 and the rules cold, chilly, hot,
frost, with a consumer that receives one alert before the fourth rule sends: the first
alert is queued, the second is dropped on the full queue, the third rule does not fire,
and the pass goes on to the fourth rule, whose alert is queued in the room the consumer
made. -/
theorem evaluateRules_backpressure_witness :
    (evaluateRulesFrom sampleRuntime negativeSamples lateConsumer 0
        [coldRule, chillyRule] smallEngine.alertChan).buffer
      = [firingAlert coldRule (F64.fin (-3)) 100] ∧
    (evaluateRules sampleRuntime lateConsumer smallEngine).alertChan.buffer
      = [firingAlert frostRule (F64.fin (-3)) 100] := by
  refine ⟨by decide, ?_⟩
  rw [(evaluateRules_backpressure sampleRuntime lateConsumer smallEngine).1
    [coldRule, chillyRule, hotRule] frostRule [] rfl]
  decide

/-! ## C8: a query with an unknown function -/

/-- C8 as stated fails at the rule `median cpu_usage < 1` over `5m`: the function is not
one of the six, the query value is 0, and since 0 < 1 the rule fires. -/
theorem unknown_function_can_fire :
    Fields medianRule.Query = ["median", "cpu_usage"] ∧
      "median" ∉ knownFunctions ∧
      executeQuery inOrder NewMetricCollector 0 medianRule.Query 300000000000
        = F64.fin 0 ∧
      evaluateRule sampleRuntime inOrder NewMetricCollector 0 medianRule
        = some (firingAlert medianRule (F64.fin 0) 0) := by
  refine ⟨by decide, by decide, by decide, by decide⟩

/-- C8, amended.  A rule whose query names a function other than `sum`, `avg`, `max`,
`rate`, `p95`, `p99` gets the value 0 from `Engine.executeQuery`, and `Engine.evaluateRule`
compares that 0 with the threshold like any other value: with a duration that parses and
one of the six operators, it returns an alert, of value 0, if and only if
`0 <operator> threshold` holds. -/
theorem evaluateRule_unknown_function (rt : Runtime) (tr : Traversal) (mc : MetricCollector)
    (now : Time) (rule : AlertRule)
    (hfn : ∀ function metricName rest,
      Fields rule.Query = function :: metricName :: rest → function ∉ knownFunctions) :
    (∀ duration, executeQuery tr mc now rule.Query duration = F64.fin 0) ∧
    (∀ duration (op : Operator), rt.parseDuration rule.Duration = some duration →
      rule.Operator = op.symbol →
      ((∃ alert, evaluateRule rt tr mc now rule = some alert) ↔
          op.holds (F64.fin 0) rule.Threshold = true) ∧
      (∀ alert, evaluateRule rt tr mc now rule = some alert →
          alert = firingAlert rule (F64.fin 0) now)) := by
  have hq : ∀ duration, executeQuery tr mc now rule.Query duration = F64.fin 0 := by
    intro duration
    unfold executeQuery
    split
    · next function metricName rest hf =>
      have h := hfn function metricName rest hf
      simp only [knownFunctions, List.mem_cons, List.mem_singleton, List.not_mem_nil,
        or_false, not_or] at h
      simp [h.1, h.2.1, h.2.2.1, h.2.2.2.1, h.2.2.2.2.1, h.2.2.2.2.2]
    · rfl
  refine ⟨hq, ?_⟩
  intro duration op hd hop
  have heval := evaluateRule_of_parse rt tr mc now rule duration hd
  rw [hop, compareOp_symbol, hq] at heval
  rw [heval]
  cases op.holds (F64.fin 0) rule.Threshold <;> simp [eq_comm]

/-- C8, amended, at the rule `median cpu_usage < 1` on the empty registry: it fires,
because 0 < 1. -/
theorem evaluateRule_unknown_function_witness :
    ∃ alert, evaluateRule sampleRuntime inOrder NewMetricCollector 0 medianRule = some alert := by
  have hfn : ∀ function metricName rest,
      Fields medianRule.Query = function :: metricName :: rest → function ∉ knownFunctions := by
    intro function metricName rest h
    have hf : Fields medianRule.Query = ["median", "cpu_usage"] := by decide
    rw [hf] at h
    simp only [List.cons.injEq] at h
    rw [← h.1]
    decide
  exact ((evaluateRule_unknown_function sampleRuntime inOrder NewMetricCollector 0 medianRule hfn).2
    300000000000 Operator.lt (by decide) (by decide)).1.mpr (by decide)

/-! ## C9: malformed rules -/

/-- C9. A rule whose duration string does not parse, or whose operator is none of the six
comparison operators, yields no alert whatever the metric data and the time; a pass of
`Engine.evaluateRules` leaves the rule list of the engine as it was; and in a pass the
malformed rule changes nothing: the rules after it are evaluated on the channel the rules
before it left. -/
theorem malformed_rule_skipped (rt : Runtime) (rule : AlertRule)
    (h : rt.parseDuration rule.Duration = none ∨ ∀ op : Operator, rule.Operator ≠ op.symbol) :
    (∀ tr mc now, evaluateRule rt tr mc now rule = none) ∧
    (∀ pass e, (evaluateRules rt pass e).rules = e.rules) ∧
    (∀ mc pass i before after ch,
      evaluateRulesFrom rt mc pass i (before ++ rule :: after) ch =
        evaluateRulesFrom rt mc pass (i + before.length + 1) after
          (evaluateRulesFrom rt mc pass i before ch)) := by
  have hnone : ∀ tr mc now, evaluateRule rt tr mc now rule = none := by
    intro tr mc now
    rcases h with hd | hop
    · exact evaluateRule_bad_duration rt tr mc now rule hd
    · exact evaluateRule_bad_operator rt tr mc now rule hop
  refine ⟨hnone, fun _ _ => rfl, ?_⟩
  intro mc pass i before after ch
  rw [evaluateRulesFrom_append]
  simp only [evaluateRulesFrom, hnone]

/-- C9 on an engine whose rules are one with the operator `=<`, one that fires, and one
with the duration `one hour`: the pass keeps the three rules and queues the alert of the
second. -/
theorem malformed_rule_skipped_witness :
    evaluateRule sampleRuntime inOrder negativeSamples 100 badOperatorRule = none ∧
      evaluateRule sampleRuntime inOrder negativeSamples 100 badDurationRule = none ∧
      (evaluateRules sampleRuntime quietPass mixedEngine).rules
        = [badOperatorRule, coldRule, badDurationRule] ∧
      (evaluateRules sampleRuntime quietPass mixedEngine).alertChan.buffer
        = [firingAlert coldRule (F64.fin (-3)) 100] := by
  have hop : ∀ op : Operator, badOperatorRule.Operator ≠ op.symbol := by
    intro op; cases op <;> decide
  have hd : sampleRuntime.parseDuration badDurationRule.Duration = none := by decide
  refine ⟨(malformed_rule_skipped sampleRuntime badOperatorRule (Or.inr hop)).1 _ _ _,
    (malformed_rule_skipped sampleRuntime badDurationRule (Or.inl hd)).1 _ _ _,
    (malformed_rule_skipped sampleRuntime badOperatorRule (Or.inr hop)).2.1 _ _, by decide⟩

/-! ## C10: the maximum of a series -/

/-- C10, at the series `low` whose one sample, in the window, has the value negative
infinity: `Aggregator.Max` returns 0, which is not a value of the window. -/
theorem Max_of_negInf_window :
    GetMetrics onlyNegInf "low" [] = some onlyNegInfSeries ∧
      strictWindow 100 50 onlyNegInfSeries = [F64.negInf] ∧
      Max onlyNegInf 100 "low" [] 50 = F64.fin 0 ∧
      F64.fin 0 ∉ strictWindow 100 50 onlyNegInfSeries := by
  decide

/-- C10, amended. On a series that exists, over a window whose duration is not the least
`int64`, looking at the values of the samples whose timestamp is strictly after
`now - duration`: when one of them is a number other than NaN and negative infinity,
`Aggregator.Max` returns one of them, not NaN, that is greater than or equal to every one
of them that is not NaN (also when all of them are negative); when there is none, or each
is NaN or negative infinity, `Max` returns 0. -/
theorem Max_is_maximum (mc : MetricCollector) (now : Time) (name : String)
    (labels : Labels) (duration : Duration) (series : MetricSeries)
    (hget : GetMetrics mc name labels = some series) (hd : duration.Negatable) :
    ((∃ v ∈ strictWindow now duration series, v ≠ F64.nan ∧ v ≠ F64.negInf) →
      Max mc now name labels duration ∈ strictWindow now duration series ∧
        Max mc now name labels duration ≠ F64.nan ∧
        ∀ v ∈ strictWindow now duration series, v ≠ F64.nan →
          F64.le v (Max mc now name labels duration) = true) ∧
    ((∀ v ∈ strictWindow now duration series, v = F64.nan ∨ v = F64.negInf) →
      Max mc now name labels duration = F64.fin 0) := by
  have hmax := Max_of_series mc now name labels duration series hget
  rw [windowValues_eq_strictWindow now duration series hd] at hmax
  constructor
  · intro hproper
    obtain ⟨h1, h2, h3, h4⟩ := runningMax_of_proper _ hproper
    rw [hmax, if_neg h3]
    exact ⟨h1, h2, h4⟩
  · intro himproper
    rw [hmax, if_pos (runningMax_of_improper _ himproper)]

/-- C10, amended, on the samples -5, -3 and -9, all in the window: the maximum is -3. -/
theorem Max_is_maximum_witness :
    Max negativeSamples 100 "temp" [] 50 = F64.fin (-3) := by
  have h := (Max_is_maximum negativeSamples 100 "temp" [] 50 negativeSamplesSeries
    (by decide) ⟨by decide, by decide⟩).1 ⟨F64.fin (-5), by decide, by decide, by decide⟩
  have hw : strictWindow 100 50 negativeSamplesSeries
      = [F64.fin (-5), F64.fin (-3), F64.fin (-9)] := by decide
  rw [hw] at h
  obtain ⟨hmem, _, hle⟩ := h
  have h3 := hle (F64.fin (-3)) (by decide) (by decide)
  simp only [List.mem_cons, List.mem_singleton, List.not_mem_nil, or_false] at hmem
  rcases hmem with hm | hm | hm
  · rw [hm] at h3
    exact absurd h3 (by decide)
  · exact hm
  · rw [hm] at h3
    exact absurd h3 (by decide)

/-! ## C11: the rate of a series -/

/-- C11, at one sample in a window of two nanoseconds: the count over the length of the
window in seconds is `1 / (2 / 10^9) = 500000000`, a double, and `Aggregator.Rate` returns
the double below it, `499999999.99999994`, because `Duration.Seconds` rounds `2 / 10^9`
up before the division. -/
theorem Rate_rounds :
    GetMetrics oneSample "m" [] = some oneSampleSeries ∧
      strictWindow 100 2 oneSampleSeries = [F64.fin 40] ∧
      Rate oneSample 100 "m" [] 2 = F64.fin (8388607999999999 / 16777216) ∧
      (1 : ℚ) / (2 / 1000000000) = 500000000 ∧
      F64.fin (8388607999999999 / 16777216) ≠ F64.fin 500000000 := by
  have hget : GetMetrics oneSample "m" [] = some oneSampleSeries := by decide
  have hw : windowValues 100 2 oneSampleSeries = [F64.fin 40] := by decide
  have hone : F64.ofInt (([F64.fin 40].length : Nat) : Int) = F64.fin 1 := by
    have := F64.ofInt_small 1 (by norm_num)
    simpa using this
  have hsec : Duration.Seconds 2 = F64.fin (4835703278458517 / 2417851639229258349412352) := by
    have hq : (2 : Int).tdiv 1000000000 = 0 := by decide
    have hr : (2 : Int).tmod 1000000000 = 2 := by decide
    have h0 : F64.ofInt 0 = F64.fin 0 := by
      have := F64.ofInt_small 0 (by norm_num)
      simpa using this
    have h2 : F64.ofInt 2 = F64.fin 2 := by
      have := F64.ofInt_small 2 (by norm_num)
      simpa using this
    have hdiv : F64.div (F64.fin 2) (F64.fin 1000000000)
        = F64.fin (4835703278458517 / 2417851639229258349412352) := by
      have := round_eq_of_near (2 / 1000000000) (-29) 4835703278458517 (by norm_num)
        (by norm_num) (by norm_num) (by norm_num) (by norm_num) (by norm_num) (by norm_num)
      rw [F64.div_fin 2 1000000000 (by norm_num)]
      norm_num at this ⊢
      exact this
    have hadd : F64.add (F64.fin 0) (F64.fin (4835703278458517 / 2417851639229258349412352))
        = F64.fin (4835703278458517 / 2417851639229258349412352) := by
      have := round_of_dyadic 4835703278458517 (-81) (by norm_num) (by norm_num) (by norm_num)
      rw [F64.add_fin]
      norm_num at this ⊢
      exact this
    unfold Duration.Seconds
    rw [hq, hr, h0, h2, hdiv, hadd]
  have hrate : F64.div (F64.fin 1) (F64.fin (4835703278458517 / 2417851639229258349412352))
      = F64.fin (8388607999999999 / 16777216) := by
    have := round_eq_of_near (1 / (4835703278458517 / 2417851639229258349412352)) 28
      8388607999999999 (by norm_num) (by norm_num) (by norm_num) (by norm_num) (by norm_num)
      (by norm_num) (by norm_num)
    rw [F64.div_fin _ _ (by norm_num)]
    norm_num at this ⊢
    exact this
  refine ⟨hget, by decide, ?_, by norm_num, ?_⟩
  · rw [Rate_of_series _ _ _ _ _ _ hget, hw, hone, hsec, hrate]
  · intro h
    have h2 := F64.fin.inj h
    norm_num at h2

/-- C11, amended. `Aggregator.Rate` on a series that exists, over a window of positive
duration: the number of samples whose timestamp is strictly after `now - duration`,
converted to a double and divided, as doubles, by the double `Duration.Seconds` gives for
the length of the window.  The count reads the timestamps only, so the values of the
samples play no part.  Over a window of a whole number of seconds with fewer than `2^53`
samples in it, that is the count over the seconds, rounded once to the nearest double;
five such samples in a window of ten seconds give 0.5. -/
theorem Rate_is_event_rate (mc : MetricCollector) (now : Time) (name : String)
    (labels : Labels) (duration : Duration) (series : MetricSeries)
    (hget : GetMetrics mc name labels = some series)
    (hpos : 0 < duration) (hmax : duration < -minInt64) :
    Rate mc now name labels duration =
      F64.div (F64.ofInt (((series.Values.map (·.Timestamp)).filter
          (fun t => decide (now - duration < t))).length : Nat))
        (Duration.Seconds duration) ∧
    (∀ s : Int, duration = s * 1000000000 →
      ((series.Values.map (·.Timestamp)).filter
          (fun t => decide (now - duration < t))).length < 2 ^ 53 →
      Rate mc now name labels duration =
        F64.round ((((series.Values.map (·.Timestamp)).filter
          (fun t => decide (now - duration < t))).length : ℚ) / (s : ℚ))) ∧
    (duration = 10 * 1000000000 →
      ((series.Values.map (·.Timestamp)).filter
          (fun t => decide (now - duration < t))).length = 5 →
      Rate mc now name labels duration = F64.fin (1 / 2)) := by
  have hd : duration.Negatable := by
    refine ⟨?_, hmax⟩
    have : minInt64 < 0 := by decide
    exact lt_trans this hpos
  have hlen : (windowValues now duration series).length =
      ((series.Values.map (·.Timestamp)).filter
        (fun t => decide (now - duration < t))).length := by
    rw [windowValues_eq_strictWindow now duration series hd]
    unfold strictWindow
    rw [List.length_map, List.filter_map, List.length_map]
    rfl
  have hrate := Rate_of_series mc now name labels duration series hget
  rw [hlen] at hrate
  have hwhole : ∀ s : Int, duration = s * 1000000000 →
      ((series.Values.map (·.Timestamp)).filter
          (fun t => decide (now - duration < t))).length < 2 ^ 53 →
      Rate mc now name labels duration =
        F64.round ((((series.Values.map (·.Timestamp)).filter
          (fun t => decide (now - duration < t))).length : ℚ) / (s : ℚ)) := by
    intro s hs hcount
    have hmin : -minInt64 = 9223372036854775808 := by decide
    have h0 : (0 : Int) < s * 1000000000 := hs ▸ hpos
    have h1 : s * 1000000000 < 9223372036854775808 := hmin ▸ hs ▸ hmax
    have hs0 : 0 < s := by omega
    have hs1 : s < 2 ^ 53 := by
      norm_num
      omega
    have hsabs : |s| < 2 ^ 53 := by
      rw [abs_of_pos hs0]
      exact hs1
    have hsq : (s : ℚ) ≠ 0 := by
      exact_mod_cast ne_of_gt hs0
    rw [hrate, hs, Seconds_of_whole s hsabs]
    have hc := F64.ofInt_small
      ((((series.Values.map (·.Timestamp)).filter
        (fun t => decide (now - s * 1000000000 < t))).length : Nat) : Int)
      (by
        rw [abs_of_nonneg (Int.ofNat_nonneg _)]
        rw [hs] at hcount
        exact_mod_cast hcount)
    rw [hc]
    rw [F64.div_fin _ _ hsq]
    push_cast
    rfl
  refine ⟨hrate, hwhole, ?_⟩
  intro hten hcount
  have h := hwhole 10 hten (by rw [hcount]; norm_num)
  rw [h, hcount]
  have := round_of_dyadic 1 (-1) (by norm_num) (by norm_num) (by norm_num)
  norm_num at this ⊢
  exact this

/-- C11, amended, on the series `req` read at 20 s over ten seconds: five samples are
stamped after 10 s (the one stamped exactly 10 s is not counted), so the rate is 0.5. -/
theorem Rate_is_event_rate_witness :
    Rate sevenRequests 20000000000 "req" [] 10000000000 = F64.fin (1 / 2) :=
  (Rate_is_event_rate sevenRequests 20000000000 "req" [] 10000000000 sevenRequestsSeries
    (by decide) (by decide) (by decide)).2.2 (by decide) (by decide)

/-! ## C12: the average of a series -/

/-- C12, at the series `lat` that holds 14, 0, 1, 2, 3, 4 and 5, all in the window: `Sum`
returns 29 and `Average` returns the double nearest to 29/7, which is not 29/7; its
product with the count 7 is not 29 in exact arithmetic, and is `29.000000000000004` as a
product of doubles. -/
theorem Average_times_count :
    GetMetrics sevenLatencies "lat" [] = some sevenLatenciesSeries ∧
      (strictWindow 100 50 sevenLatenciesSeries).length = 7 ∧
      Sum sevenLatencies 100 "lat" [] 50 = F64.fin 29 ∧
      Average sevenLatencies 100 "lat" [] 50
        = F64.fin (4664442471205157 / 1125899906842624) ∧
      (4664442471205157 / 1125899906842624 : ℚ) * 7 ≠ 29 ∧
      F64.mul (Average sevenLatencies 100 "lat" [] 50) (F64.fin 7)
        = F64.fin (8162774324609025 / 281474976710656) ∧
      F64.fin (8162774324609025 / 281474976710656) ≠ F64.fin 29 := by
  have hget : GetMetrics sevenLatencies "lat" [] = some sevenLatenciesSeries := by decide
  have hw : windowValues 100 50 sevenLatenciesSeries =
      ([14, 0, 1, 2, 3, 4, 5] : List Int).map (fun (n : Int) => F64.fin (n : ℚ)) := by
    decide
  have hfold := foldl_add_of_ints [14, 0, 1, 2, 3, 4, 5] 0 (by decide)
  have hsum : (windowValues 100 50 sevenLatenciesSeries).foldl F64.add (F64.fin 0)
      = F64.fin 29 := by
    rw [hw]
    simpa using hfold
  have hlen : (windowValues 100 50 sevenLatenciesSeries).length = 7 := by
    rw [hw]
    rfl
  have hseven : F64.ofInt ((7 : Nat) : Int) = F64.fin 7 := by
    have := F64.ofInt_small 7 (by norm_num)
    simpa using this
  have hdiv : F64.div (F64.fin 29) (F64.fin 7)
      = F64.fin (4664442471205157 / 1125899906842624) := by
    have := round_eq_of_near (29 / 7) 2 4664442471205157 (by norm_num) (by norm_num)
      (by norm_num) (by norm_num) (by norm_num) (by norm_num) (by norm_num)
    rw [F64.div_fin 29 7 (by norm_num)]
    norm_num at this ⊢
    exact this
  have hmul : F64.mul (F64.fin (4664442471205157 / 1125899906842624)) (F64.fin 7)
      = F64.fin (8162774324609025 / 281474976710656) := by
    have := round_eq_of_near (4664442471205157 / 1125899906842624 * 7) 4 8162774324609025
      (by norm_num) (by norm_num) (by norm_num) (by norm_num) (by norm_num) (by norm_num)
      (by norm_num)
    rw [F64.mul_fin]
    norm_num at this ⊢
    exact this
  have havg : Average sevenLatencies 100 "lat" [] 50
      = F64.fin (4664442471205157 / 1125899906842624) := by
    rw [Average_of_series _ _ _ _ _ _ hget, hsum, hlen, if_neg (by norm_num), hseven, hdiv]
  refine ⟨hget, by decide, ?_, havg, by norm_num, ?_, ?_⟩
  · rw [Sum_of_series _ _ _ _ _ _ hget, hsum]
  · rw [havg, hmul]
  · intro h
    have h2 := F64.fin.inj h
    norm_num at h2

/-- C12, amended. On a series that exists, over a window whose duration is not the least
`int64`, with `count` samples whose timestamp is strictly after `now - duration`:
`Average` is 0 when `count` is 0, and otherwise the double nearest to the quotient of what
`Sum` returns over the same series, window and time (the float sum of those samples'
values) by `count`.  When that sum is an integer `s` of magnitude below `2^53` and
`s / count` is a double, no operation rounds: `Average` is `s / count`, and
`Average * count = Sum`. -/
theorem Average_is_sum_over_count (mc : MetricCollector) (now : Time) (name : String)
    (labels : Labels) (duration : Duration) (series : MetricSeries)
    (hget : GetMetrics mc name labels = some series) (hd : duration.Negatable) :
    Sum mc now name labels duration =
      (strictWindow now duration series).foldl F64.add (F64.fin 0) ∧
    (strictWindow now duration series = [] → Average mc now name labels duration = F64.fin 0) ∧
    (strictWindow now duration series ≠ [] →
      Average mc now name labels duration =
        F64.div (Sum mc now name labels duration)
          (F64.ofInt ((strictWindow now duration series).length : Nat))) ∧
    (∀ s m k : Int, strictWindow now duration series ≠ [] →
      (strictWindow now duration series).length < 2 ^ 53 →
      Sum mc now name labels duration = F64.fin (s : ℚ) → |s| < 2 ^ 53 →
      (s : ℚ) / ((strictWindow now duration series).length : ℚ) = (m : ℚ) * 2 ^ k →
      |m| < 2 ^ 53 → -1074 ≤ k → k ≤ 970 →
      Average mc now name labels duration =
          F64.fin ((s : ℚ) / ((strictWindow now duration series).length : ℚ)) ∧
        F64.mul (Average mc now name labels duration)
            (F64.ofInt ((strictWindow now duration series).length : Nat))
          = Sum mc now name labels duration) := by
  have hsum := Sum_of_series mc now name labels duration series hget
  have havg := Average_of_series mc now name labels duration series hget
  rw [← hsum] at havg
  rw [windowValues_eq_strictWindow now duration series hd] at hsum havg
  have hsome : strictWindow now duration series ≠ [] →
      Average mc now name labels duration =
        F64.div (Sum mc now name labels duration)
          (F64.ofInt ((strictWindow now duration series).length : Nat)) := by
    intro hne
    rw [havg, if_neg (fun h => hne (List.length_eq_zero.mp h))]
  refine ⟨hsum, ?_, hsome, ?_⟩
  · intro hnil
    rw [havg, hnil]
    rfl
  · intro s m k hne hlen hs hsmall hquot hm hk hk2
    have hpos : 0 < (strictWindow now duration series).length :=
      List.length_pos.mpr hne
    have hcount : F64.ofInt ((strictWindow now duration series).length : Nat)
        = F64.fin ((strictWindow now duration series).length : ℚ) := by
      have := F64.ofInt_small ((strictWindow now duration series).length : Nat)
        (by
          rw [abs_of_nonneg (Int.ofNat_nonneg _)]
          exact_mod_cast hlen)
      rw [this]
      push_cast
      rfl
    have hq : ((strictWindow now duration series).length : ℚ) ≠ 0 := by
      exact_mod_cast ne_of_gt hpos
    have hvalue : Average mc now name labels duration =
        F64.fin ((s : ℚ) / ((strictWindow now duration series).length : ℚ)) := by
      rw [hsome hne, hs, hcount, F64.div_fin _ _ hq, hquot]
      exact round_of_dyadic m k hm hk hk2
    refine ⟨hvalue, ?_⟩
    rw [hvalue, hcount, hs, F64.mul_fin, div_mul_cancel₀ _ hq]
    exact round_intCast s hsmall

/-- C12, amended, on the samples 40, 10, 30 and 20, all in the window: `Sum` is 100,
`Average` is 25, and `Average * 4 = Sum`. -/
theorem Average_is_sum_over_count_witness :
    Average fourSamples 100 "m" [] 50 = F64.fin 25 ∧
      F64.mul (Average fourSamples 100 "m" [] 50) (F64.ofInt 4)
        = Sum fourSamples 100 "m" [] 50 := by
  have hget : GetMetrics fourSamples "m" [] = some fourSamplesSeries := by decide
  have hd : Duration.Negatable 50 := ⟨by decide, by decide⟩
  have hw : strictWindow 100 50 fourSamplesSeries =
      ([40, 10, 30, 20] : List Int).map (fun (n : Int) => F64.fin (n : ℚ)) := by decide
  have hlen : (strictWindow 100 50 fourSamplesSeries).length = 4 := by
    rw [hw]
    rfl
  have hfold := foldl_add_of_ints [40, 10, 30, 20] 0 (by decide)
  have hsum : Sum fourSamples 100 "m" [] 50 = F64.fin ((100 : Int) : ℚ) := by
    rw [(Sum_of_series fourSamples 100 "m" [] 50 fourSamplesSeries hget),
      windowValues_eq_strictWindow 100 50 fourSamplesSeries hd, hw]
    simpa using hfold
  have h := (Average_is_sum_over_count fourSamples 100 "m" [] 50 fourSamplesSeries hget
    hd).2.2.2 100 25 0 (by rw [hw]; simp) (by rw [hlen]; norm_num) hsum (by norm_num)
    (by rw [hlen]; norm_num) (by norm_num) (by norm_num) (by norm_num)
  rw [hlen] at h
  norm_num at h
  exact h

/-! ## C13: the sum of a series -/

/-- C13, at the series `big` that holds `2^53` and 1, both in the window: the arithmetic
sum of the values is `2^53 + 1`, and `Aggregator.Sum` returns `2^53`, the double the
second addition rounds to. -/
theorem Sum_rounds :
    GetMetrics bigAndOne "big" [] = some bigAndOneSeries ∧
      strictWindow 100 50 bigAndOneSeries = [F64.fin 9007199254740992, F64.fin 1] ∧
      Sum bigAndOne 100 "big" [] 50 = F64.fin 9007199254740992 ∧
      F64.fin 9007199254740992 ≠ F64.fin (9007199254740992 + 1) := by
  have hget : GetMetrics bigAndOne "big" [] = some bigAndOneSeries := by decide
  have hw : windowValues 100 50 bigAndOneSeries = [F64.fin 9007199254740992, F64.fin 1] := by
    decide
  have h1 : F64.add (F64.fin 0) (F64.fin 9007199254740992) = F64.fin 9007199254740992 := by
    have := round_of_dyadic 1 53 (by norm_num) (by norm_num) (by norm_num)
    show F64.round (0 + 9007199254740992) = F64.fin 9007199254740992
    norm_num at this ⊢
    exact this
  have h2 : F64.add (F64.fin 9007199254740992) (F64.fin 1) = F64.fin 9007199254740992 := by
    have := round_eq_of_tie_above (9007199254740992 + 1) 53 4503599627370496 (by norm_num)
      (by norm_num) (by norm_num) (by norm_num) (by norm_num) (by norm_num) (by norm_num)
    show F64.round (9007199254740992 + 1) = F64.fin 9007199254740992
    norm_num at this ⊢
    exact this
  refine ⟨hget, by decide, ?_, by simp⟩
  rw [Sum_of_series _ _ _ _ _ _ hget, hw, List.foldl_cons, List.foldl_cons, List.foldl_nil,
    h1, h2]

/-- C13, amended. `Aggregator.Sum` on a series that exists, over a window whose duration
is not the least `int64`, is the float sum of the values of the samples whose timestamp is
strictly after `now - duration`: the values are added to 0 in series order, each addition
rounded to a double.  A sample whose timestamp is `now - duration` exactly, or older, adds
nothing: the result is the same as without it.  When the values in the window are integers
whose magnitudes total less than `2^53`, no addition rounds and the result is their
arithmetic sum. -/
theorem Sum_is_window_sum (mc : MetricCollector) (now : Time) (name : String)
    (labels : Labels) (duration : Duration) (series : MetricSeries)
    (hget : GetMetrics mc name labels = some series) (hd : duration.Negatable) :
    Sum mc now name labels duration =
      (strictWindow now duration series).foldl F64.add (F64.fin 0) ∧
    (∀ before dp after, series.Values = before ++ dp :: after →
      dp.Timestamp ≤ now - duration →
      Sum mc now name labels duration =
        (((before ++ after).filter
          (fun dp => decide (now - duration < dp.Timestamp))).map (·.Value)).foldl
            F64.add (F64.fin 0)) ∧
    (∀ ns : List Int, strictWindow now duration series = ns.map (fun (n : Int) => F64.fin (n : ℚ)) →
      (ns.map Int.natAbs).sum < 2 ^ 53 →
      Sum mc now name labels duration = F64.fin ((ns.sum : Int) : ℚ)) := by
  have hsum := Sum_of_series mc now name labels duration series hget
  rw [windowValues_eq_strictWindow now duration series hd] at hsum
  refine ⟨hsum, ?_, ?_⟩
  · intro before dp after hvalues hold
    have hout : decide (now - duration < dp.Timestamp) = false := by
      simp only [decide_eq_false_iff_not, not_lt]
      exact hold
    rw [hsum]
    unfold strictWindow
    rw [hvalues]
    simp only [List.filter_append, List.filter_cons, hout]
    rfl
  · intro ns hns hsmall
    have h := foldl_add_of_ints ns 0 (by simpa using hsmall)
    rw [hsum, hns]
    simpa using h

/-- C13, amended, on the series `req` read at 20 s over ten seconds: the samples stamped
5 s and exactly 10 s (values 7 and 5) are left out, and the sum is
1 + 2 - 4 + 100 + 0 = 99. -/
theorem Sum_is_window_sum_witness :
    Sum sevenRequests 20000000000 "req" [] 10000000000 = F64.fin 99 := by
  have h := (Sum_is_window_sum sevenRequests 20000000000 "req" [] 10000000000
    sevenRequestsSeries (by decide) ⟨by decide, by decide⟩).2.2 [1, 2, -4, 100, 0] (by decide) (by decide)
  simpa using h

/-! ## C14: parsing of a query -/

/-- C14, at the registry that holds the samples 90 and 71 of `cpu{a=1,b=2}` under the key
`cpu__a=1__b=2`: the queries `sum cpu a=1 b=2` and `sum cpu a=1 junk b=2` differ only in a
token with no `=` and hand the same label filter to the aggregator, yet the first returns
161 when its traversal of the label map visits `a` first, and the second returns 0 when
its traversal visits `b` first, as does the first query itself under that traversal. -/
theorem executeQuery_traversal_dependent :
    labelFilter ["a=1", "b=2"] = labelFilter ["a=1", "junk", "b=2"] ∧
      executeQuery inOrder cpuTwoLabels 100 "sum cpu a=1 b=2" 50 = F64.fin 161 ∧
      executeQuery reversed cpuTwoLabels 100 "sum cpu a=1 junk b=2" 50 = F64.fin 0 ∧
      executeQuery reversed cpuTwoLabels 100 "sum cpu a=1 b=2" 50 = F64.fin 0 := by
  have hf : Fields "sum cpu a=1 b=2" = ["sum", "cpu", "a=1", "b=2"] := by decide
  have hf2 : Fields "sum cpu a=1 junk b=2" = ["sum", "cpu", "a=1", "junk", "b=2"] := by decide
  have hl : labelFilter ["a=1", "b=2"] = labelsAB := by decide
  have hl2 : labelFilter ["a=1", "junk", "b=2"] = labelsAB := by decide
  have hget : GetMetrics cpuTwoLabels "cpu" labelsAB =
      some ⟨"cpu", "gauge", [⟨F64.fin 90, 99⟩, ⟨F64.fin 71, 99⟩], labelsAB⟩ := by decide
  have hw : windowValues 100 50
      ⟨"cpu", "gauge", [⟨F64.fin 90, 99⟩, ⟨F64.fin 71, 99⟩], labelsAB⟩
        = [F64.fin 90, F64.fin 71] := by decide
  have h90 : F64.add (F64.fin 0) (F64.fin 90) = F64.fin 90 := by
    have := F64.add_of_int 0 90 90 (by norm_num) (by norm_num)
    simpa using this
  have h161 : F64.add (F64.fin 90) (F64.fin 71) = F64.fin 161 := by
    have := F64.add_of_int 90 71 161 (by norm_num) (by norm_num)
    simpa using this
  have hmiss : GetMetrics cpuTwoLabels "cpu" (reversed.order labelsAB) = none := by decide
  have hzero : Sum cpuTwoLabels 100 "cpu" (reversed.order labelsAB) 50 = F64.fin 0 :=
    (aggregations_of_missing cpuTwoLabels 100 "cpu" (reversed.order labelsAB) 50 hmiss).1
  refine ⟨by rw [hl, hl2], ?_, ?_, ?_⟩
  · rw [executeQuery_of_fields inOrder cpuTwoLabels 100 50 _ _ _ _ hf, if_pos rfl, hl]
    show Sum cpuTwoLabels 100 "cpu" labelsAB 50 = F64.fin 161
    rw [Sum_of_series _ _ _ _ _ _ hget, hw]
    simp only [List.foldl_cons, List.foldl_nil]
    rw [h90, h161]
  · rw [executeQuery_of_fields reversed cpuTwoLabels 100 50 _ _ _ _ hf2, if_pos rfl, hl2]
    exact hzero
  · rw [executeQuery_of_fields reversed cpuTwoLabels 100 50 _ _ _ _ hf, if_pos rfl, hl]
    exact hzero

/-! ## C15: the registry only grows -/

/-- C15. For every registry and every call of `RecordMetric`: a key present before the call
is present after it and maps to the same series, with the same name, declared type and
labels; under a key other than the one of the call the series is untouched, and under
the key of the call its samples are the old ones with the new sample appended, pruned
(so a sublist of that, in order).  Every key other than the one of the call maps to what
it mapped to before, absent keys included, so the call adds at most one key. -/
theorem RecordMetric_registry_grows (now : Time) (mc : MetricCollector) (metric : Metric) :
    (∀ key series, mc key = some series →
      ∃ after, RecordMetric now mc metric key = some after ∧
        after.Name = series.Name ∧ after.Type_ = series.Type_ ∧ after.Labels = series.Labels ∧
        (key ≠ generateKey metric.Name metric.Labels → after = series) ∧
        (key = generateKey metric.Name metric.Labels →
          after.Values = pruneOldValues now (series.Values ++ [sampleOf metric])) ∧
        after.Values.Sublist (series.Values ++ [sampleOf metric])) ∧
    (∀ key, key ≠ generateKey metric.Name metric.Labels →
      RecordMetric now mc metric key = mc key) ∧
    (∃ series, RecordMetric now mc metric (generateKey metric.Name metric.Labels)
      = some series) := by
  refine ⟨?_, ?_, ?_⟩
  · intro key series hkey
    by_cases hk : key = generateKey metric.Name metric.Labels
    · subst hk
      refine ⟨{ series with Values := pruneOldValues now (series.Values ++ [sampleOf metric]) },
        ?_, rfl, rfl, rfl, fun h => absurd rfl h, fun _ => rfl, ?_⟩
      · simp [RecordMetric, hkey, sampleOf]
      · exact List.filter_sublist _
    · refine ⟨series, ?_, rfl, rfl, rfl, fun _ => rfl, fun h => absurd h hk, ?_⟩
      · rw [RecordMetric_other_key now mc metric key hk, hkey]
      · exact List.sublist_append_left _ _
  · exact fun key hk => RecordMetric_other_key now mc metric key hk
  · obtain ⟨series, hs, _⟩ := RecordMetric_at_key now mc metric
    exact ⟨series, hs⟩

/-- C15 on the registry `negativeSamples`, at a call for the new series `m`: the series
`temp` is still there, unchanged, and `m` is the one key added. -/
theorem RecordMetric_registry_grows_witness :
    RecordMetric 100 negativeSamples ⟨"m", F64.fin 40, 99, [], "gauge"⟩ "temp"
        = negativeSamples "temp" ∧
      negativeSamples "m" = none ∧
      (RecordMetric 100 negativeSamples ⟨"m", F64.fin 40, 99, [], "gauge"⟩ "m").isSome = true := by
  refine ⟨(RecordMetric_registry_grows 100 negativeSamples ⟨"m", F64.fin 40, 99, [], "gauge"⟩).2.1
    "temp" (by decide), by decide, by decide⟩

/-! ## C16: the percentile grows with the rank -/

/-- C16, at the series `odd` that holds NaN and 5, both in the window: `Percentile` at
rank 0 returns NaN, at rank 100 it returns 5, `Max` returns 5, and NaN is not less than or
equal to 5. -/
theorem Percentile_nan_unordered :
    Percentile nanAndFive 100 "odd" [] 50 (F64.fin 0) = some F64.nan ∧
      Percentile nanAndFive 100 "odd" [] 50 (F64.fin 100) = some (F64.fin 5) ∧
      Max nanAndFive 100 "odd" [] 50 = F64.fin 5 ∧
      F64.le F64.nan (F64.fin 5) = false := by
  have hget : GetMetrics nanAndFive "odd" [] = some nanAndFiveSeries := by decide
  have hlen : (windowValues 100 50 nanAndFiveSeries).length = 2 := by decide
  have htwo : F64.ofInt ((2 : Nat) : Int) = F64.fin 2 := by
    have := F64.ofInt_small 2 (by norm_num)
    simpa using this
  have hzero : F64.round 0 = F64.fin 0 := by
    have := round_intCast 0 (by norm_num)
    simpa using this
  have hrank0 : rankIndex (windowValues 100 50 nanAndFiveSeries).length (F64.fin 0)
      = F64.fin 0 := by
    rw [hlen]
    unfold rankIndex
    rw [htwo, F64.mul_fin, mul_zero, hzero, F64.div_fin _ _ (by norm_num), zero_div, hzero]
  have hrank100 : rankIndex (windowValues 100 50 nanAndFiveSeries).length (F64.fin 100)
      = F64.fin 2 := by
    have h200 : F64.round ((2 : ℚ) * 100) = F64.fin 200 := by
      have := round_intCast 200 (by norm_num)
      norm_num at this ⊢
      exact this
    have h2 : F64.round ((200 : ℚ) / 100) = F64.fin 2 := by
      have := round_intCast 2 (by norm_num)
      norm_num at this ⊢
      exact this
    rw [hlen]
    unfold rankIndex
    rw [htwo, F64.mul_fin, h200, F64.div_fin _ _ (by norm_num), h2]
  have hfl0 : ⌊(0 : ℚ)⌋ = 0 := Int.floor_zero
  have hfl2 : ⌊(2 : ℚ)⌋ = 2 := by
    exact_mod_cast Int.floor_intCast (2 : Int)
  refine ⟨?_, ?_, by decide, by decide⟩
  · rw [Percentile_of_series nanAndFive 100 "odd" [] 50 (F64.fin 0) nanAndFiveSeries 0 hget
      (by decide) hrank0 (by norm_num) (by norm_num), hfl0, hlen]
    decide
  · rw [Percentile_of_series nanAndFive 100 "odd" [] 50 (F64.fin 100) nanAndFiveSeries 2 hget
      (by decide) hrank100 (by norm_num) (by norm_num), hfl2, hlen]
    decide

/-- C16, amended. `Aggregator.Percentile` is monotone in the rank on windows without NaN.
For ranks `0 ≤ p ≤ q`: when the series does not exist or no sample passes the window, both
calls return 0; when `n ≥ 1` samples pass the window, none of their values is NaN, and the
double `float64(n) * q / 100` is finite and below `2^63` (as it is for `q ≤ 100` and
`n < 2^53`), both calls return a value, `Percentile(p) <= Percentile(q)`, and both are at
most `Max` over the same series, window and time. -/
theorem Percentile_monotone (mc : MetricCollector) (now : Time) (name : String)
    (labels : Labels) (duration : Duration) (p q : ℚ) (hp : 0 ≤ p) (hpq : p ≤ q) :
    (GetMetrics mc name labels = none →
      Percentile mc now name labels duration (F64.fin p) = some (F64.fin 0) ∧
        Percentile mc now name labels duration (F64.fin q) = some (F64.fin 0)) ∧
    (∀ series, GetMetrics mc name labels = some series →
      windowValues now duration series = [] →
      Percentile mc now name labels duration (F64.fin p) = some (F64.fin 0) ∧
        Percentile mc now name labels duration (F64.fin q) = some (F64.fin 0)) ∧
    (∀ series x, GetMetrics mc name labels = some series →
      windowValues now duration series ≠ [] →
      (∀ v ∈ windowValues now duration series, v ≠ F64.nan) →
      rankIndex (windowValues now duration series).length (F64.fin q) = F64.fin x →
      x < 9223372036854775808 →
      ∃ a b, Percentile mc now name labels duration (F64.fin p) = some a ∧
        Percentile mc now name labels duration (F64.fin q) = some b ∧
        F64.le a b = true ∧
        F64.le a (Max mc now name labels duration) = true ∧
        F64.le b (Max mc now name labels duration) = true) ∧
    (∀ series, GetMetrics mc name labels = some series →
      (windowValues now duration series).length < 2 ^ 53 → q ≤ 100 →
      ∃ x, rankIndex (windowValues now duration series).length (F64.fin q) = F64.fin x ∧
        x < 9223372036854775808) := by
  have hq : 0 ≤ q := le_trans hp hpq
  refine ⟨?_, ?_, ?_, ?_⟩
  · intro hget
    obtain ⟨_, _, _, _, hperc⟩ := aggregations_of_missing mc now name labels duration hget
    exact ⟨hperc _, hperc _⟩
  · intro series hget hempty
    exact ⟨Percentile_of_empty_window mc now name labels duration _ series hget hempty,
      Percentile_of_empty_window mc now name labels duration _ series hget hempty⟩
  · intro series x hget hne hnan hidx hlt
    obtain ⟨x2, hx2, hx0, _⟩ := rankIndex_mono _ q q x hq le_rfl hidx
    have hxx : x2 = x := F64.fin.inj (hx2.symm.trans hidx)
    rw [hxx] at hx0
    obtain ⟨y, hy, hy0, hyx⟩ := rankIndex_mono _ p q x hp hpq hidx
    have hpos : 0 < (windowValues now duration series).length := List.length_pos.mpr hne
    have hfloor : ⌊y⌋ ≤ ⌊x⌋ := Int.floor_le_floor hyx
    have hfy : 0 ≤ ⌊y⌋ := Int.floor_nonneg.mpr hy0
    have hij : min ⌊y⌋.toNat ((windowValues now duration series).length - 1)
        ≤ min ⌊x⌋.toNat ((windowValues now duration series).length - 1) := by
      omega
    have hj : min ⌊x⌋.toNat ((windowValues now duration series).length - 1)
        < (sortFloat64s (windowValues now duration series)).length := by
      rw [sortFloat64s_length]
      omega
    obtain ⟨a, b, ha, hb, hma, hmb, hab⟩ :=
      sortFloat64s_get_le (windowValues now duration series) hnan _ _ hij hj
    have hmax := le_Max_of_series mc now name labels duration series hget hnan
    refine ⟨a, b, ?_, ?_, hab, hmax a hma, hmax b hmb⟩
    · rw [Percentile_of_series mc now name labels duration (F64.fin p) series y hget hne hy hy0
        (lt_of_le_of_lt hyx hlt)]
      exact ha
    · rw [Percentile_of_series mc now name labels duration (F64.fin q) series x hget hne hidx
        hx0 hlt]
      exact hb
  · intro series _ hn hq2
    obtain ⟨x, hx, _, hx2⟩ := rankIndex_in_range _ q hn hq hq2
    exact ⟨x, hx, hx2⟩

/-- C16, amended, on the samples 40, 10, 30, 20, at the ranks 50 and 95: both calls return
a value, the first is at most the second, and both are at most the maximum. -/
theorem Percentile_monotone_witness :
    ∃ a b,
      Percentile fourSamples 100 "m" [] 50 (F64.fin 50) = some a ∧
      Percentile fourSamples 100 "m" [] 50 (F64.fin 95) = some b ∧
      F64.le a b = true ∧
      F64.le a (Max fourSamples 100 "m" [] 50) = true ∧
      F64.le b (Max fourSamples 100 "m" [] 50) = true := by
  have hget : GetMetrics fourSamples "m" [] = some fourSamplesSeries := by decide
  have hlen : (windowValues 100 50 fourSamplesSeries).length < 2 ^ 53 := by decide
  have h := Percentile_monotone fourSamples 100 "m" [] 50 50 95 (by norm_num) (by norm_num)
  obtain ⟨x, hx, hx2⟩ := h.2.2.2 fourSamplesSeries hget hlen (by norm_num)
  exact h.2.2.1 fourSamplesSeries x hget (by decide) (by decide) hx hx2

end Monitoring
